import Mathlib

/-!
# UDP chunked file transfer: sender read loop and receiver reassembly

A shallow embedding of the two programs of the repository:

* `file_transfer_syscall.c`: the kernel-side sender (`file_transfer`, `send_chunk`);
* `Client.c`: the user-level receiver (`receive_chunks`).

Bytes are natural numbers (values below 256 on the wire), a file and a datagram are
lists of bytes.  The C type `int` is a 32-bit two's complement integer: values are kept
in `Int` and every operation that can leave the range goes through `toInt32`.
Behaviour that C leaves undefined (an array subscript outside its array, a read past the
end of a buffer) is an explicit `fault` result.

What the programs do not decide themselves is a parameter: the number of bytes each
`kernel_read` returns and the success of each allocation (`Env`), the datagrams the
transport delivers and the number of bytes each `fwrite` accepts (`Packet`).

One receiving thread is modelled; the mutex `file_lock` makes the check of
`received_chunks`, the marking and the write of different threads atomic, and the threads
differ only in their local `buf`, which matters for datagrams shorter than 4 bytes only.
-/

namespace UdpTransfer

/-! ## Constants -/

/-- The macro `CHUNK_SIZE` of both programs: payload bytes per chunk. -/
def CHUNK_SIZE : Nat := 8192

/-- The macro `NUM_WORKERS` of the sender: number of kthread workers. -/
def NUM_WORKERS : Nat := 4

/-- The value of `sizeof(int)`, the width of the chunk index on the wire. -/
def SIZEOF_INT : Nat := 4

/-- The value of `sizeof(struct chunk)`: an `int` followed by `char data[CHUNK_SIZE]`. -/
def SIZEOF_CHUNK : Nat := SIZEOF_INT + CHUNK_SIZE

/-- Number of entries of the receiver's global `int received_chunks[100000]`. -/
def RECEIVED_CHUNKS_LEN : Nat := 100000

/-! ## Machine integers -/

/-- Conversion to `int`: reduction modulo `2^32` into `[-2^31, 2^31)`. -/
def toInt32 (x : Int) : Int := (x + 2147483648) % 4294967296 - 2147483648

/-- Conversion to `size_t` (64 bit): reduction modulo `2^64`. -/
def toSizeT (x : Int) : Nat := (x % 18446744073709551616).toNat

/-- The four bytes of an `int` in memory (little-endian two's complement), as the sender's
`iov[0]` exposes `&chunk->chunk_index`. -/
def int_bytes (i : Int) : List Nat :=
  let u := (i % 4294967296).toNat
  [u % 256, u / 256 % 256, u / 65536 % 256, u / 16777216 % 256]

/-- The `int` stored in the first four bytes of a memory region (little-endian two's
complement), as the receiver reads `buf.index`.  Missing bytes count as zero. -/
def bytes_int (bs : List Nat) : Int :=
  toInt32 ((bs.getD 0 0 + 256 * bs.getD 1 0 + 65536 * bs.getD 2 0 + 16777216 * bs.getD 3 0 : Nat) : Int)

/-! ## Sender: `struct chunk_info` and `send_chunk` -/

/-- The fields of `struct chunk_info` that carry data: `data` (the result of `kmemdup`,
`none` for a null pointer), `size` and `chunk_index`. -/
structure chunk_info where
  data : Option (List Nat)
  size : Nat
  chunk_index : Int
deriving DecidableEq, Repr

/-- The message `send_chunk` hands to `kernel_sendmsg`: `iov[0]` is the `sizeof(int)` bytes
of `chunk_index`, `iov[1]` is `size` bytes of `data`; the total length passed is
`sizeof(chunk_index) + size`.  A null `data` gives no message. -/
def send_chunk (chunk : chunk_info) : Option (List Nat) :=
  match chunk.data with
  | none => none
  | some d => some (int_bytes chunk.chunk_index ++ d.take chunk.size)

/-! ## Receiver: `receive_chunks` -/

/-- The globals of `Client.c` that the receiving threads share.  `outfile` is the content
of the stream opened with mode `"wb"`: it starts empty and `fwrite` appends to it (the
program never seeks).  `fwrite_log` is a history variable, not program state: one entry
(chunk index, bytes appended) per call of `fwrite`, in call order. -/
structure Client where
  received_chunks : Nat → Int
  outfile : List Nat
  total_bytes_received : Int
  fwrite_log : List (Int × List Nat)

/-- The initial values of the globals: array zeroed, empty file, counter zero. -/
def Client.init : Client :=
  { received_chunks := fun _ => 0, outfile := [], total_bytes_received := 0, fwrite_log := [] }

/-- One successful return of `recvfrom` together with the environment's answer to the
`fwrite` that may follow: `datagram` is the datagram delivered by the transport,
`fwrite_room` the number of bytes the output stream accepts on that call. -/
structure Packet where
  datagram : List Nat
  fwrite_room : Nat
deriving DecidableEq, Repr

/-- Undefined behaviour reached by the receiver. -/
inductive Fault where
  | index_out_of_bounds
  | read_past_buffer
deriving DecidableEq, Repr

/-- Result of running a receiving thread: still in its loop (with the shared globals and
its local `buf`), left the loop through `break`, or undefined behaviour. -/
inductive Outcome where
  | running (s : Client) (buf : List Nat)
  | stopped (s : Client)
  | fault (f : Fault)

/-- The call `recvfrom(sockfd, &buf, sizeof(buf), ...)` on a delivered datagram: the first
`min(length, sizeof(buf))` bytes of the datagram overwrite the front of `buf`, the rest of
`buf` keeps its previous content; the return value is the number of bytes stored. -/
def recvfrom (buf : List Nat) (datagram : List Nat) : List Nat × Nat :=
  let n := min datagram.length SIZEOF_CHUNK
  (datagram.take n ++ buf.drop n, n)

/-- The field `buf.index`: the `int` in the first four bytes of `buf`. -/
def buf_index (buf : List Nat) : Int := bytes_int (buf.take SIZEOF_INT)

/-- The field `buf.data`: the `CHUNK_SIZE` bytes after the index. -/
def buf_data (buf : List Nat) : List Nat := (buf.drop SIZEOF_INT).take CHUNK_SIZE

/-- The statement `int data_size = bytes_received - sizeof(int);`: the subtraction is done
in `size_t`, the result converted to `int`. -/
def data_size (bytes_received : Nat) : Int := toInt32 (toSizeT ((bytes_received : Int) - SIZEOF_INT))

/-- One iteration of the `while (1)` loop of `receive_chunks`.  The event `none` is a
`recvfrom` that returned a negative value (timeout or error): the thread breaks. -/
def receive_step (s : Client) (buf : List Nat) : Option Packet → Outcome
  | none => Outcome.stopped s
  | some p =>
    let r := recvfrom buf p.datagram
    let buf1 := r.1
    let bytes_received := r.2
    let dsize := data_size bytes_received
    let index := buf_index buf1
    if index < 0 ∨ (RECEIVED_CHUNKS_LEN : Int) ≤ index then
      Outcome.fault Fault.index_out_of_bounds
    else if s.received_chunks index.toNat = 0 then
      let count := toSizeT dsize
      if CHUNK_SIZE < count then
        Outcome.fault Fault.read_past_buffer
      else
        let written := (buf_data buf1).take (min count p.fwrite_room)
        let s1 : Client :=
          { received_chunks := Function.update s.received_chunks index.toNat 1
            outfile := s.outfile ++ written
            total_bytes_received := s.total_bytes_received
            fwrite_log := s.fwrite_log ++ [(index, written)] }
        if min count p.fwrite_room ≠ count then
          Outcome.stopped s1
        else
          Outcome.running { s1 with total_bytes_received := toInt32 (s1.total_bytes_received + dsize) } buf1
    else
      Outcome.running s buf1

/-- The loop of `receive_chunks` run over the successive results of `recvfrom`; when the
list is used up the thread is still in the loop, blocked in `recvfrom`. -/
def receive_chunks (s : Client) (buf : List Nat) : List (Option Packet) → Outcome
  | [] => Outcome.running s buf
  | e :: es =>
    match receive_step s buf e with
    | Outcome.running s1 buf1 => receive_chunks s1 buf1 es
    | o => o

/-! ## Sender: the read loop of `file_transfer` -/

/-- The environment of one run of the sender, indexed by the iteration of the read loop:
`read_cap k` bounds the number of bytes `kernel_read` returns in iteration `k` (a value
below the request is a short read, `0` covers a read error), `kmalloc_ok k` and
`kmemdup_ok k` tell whether the two allocations of iteration `k` succeed. -/
structure Env where
  read_cap : Nat → Nat
  kmalloc_ok : Nat → Bool
  kmemdup_ok : Nat → Bool

/-- The call `kernel_read(file, buf, count, &offset)` in iteration `k`: the bytes copied to
`buf`; the return value is their number and `offset` advances by it. -/
def kernel_read (env : Env) (file : List Nat) (count offset k : Nat) : List Nat :=
  ((file.drop offset).take count).take (env.read_cap k)

/-- How `file_transfer` leaves its read loop: the loop condition failed (`done`, the code
goes on to flush the workers and returns 0), `kmalloc` failed (`enomem`), the subscript of
`workers[...]` left the array (`fault`, with the chunk just created and the subscript it
was to be queued under), or the model ran out of fuel. -/
inductive Exit where
  | done
  | enomem
  | fault (chunk : chunk_info) (subscript : Int)
  | out_of_fuel
deriving DecidableEq, Repr

/-- What the read loop did: the calls of `kthread_queue_work` in program order, each with
the subscript of `workers` it used and the chunk it queued, and how the loop ended. -/
structure Transfer where
  queued : List (Nat × chunk_info)
  exit : Exit
deriving DecidableEq, Repr

/-- The `while ((ret = kernel_read(...)) > 0)` loop of `file_transfer`, from the state
`offset`, `chunk_index` in iteration `k`.  `chunk->chunk_index = chunk_index++` stores the
old value and increments in `int`; the subscript `chunk_index % NUM_WORKERS` is then taken
of the incremented value, with the truncating remainder of C (`Int.tmod`): it is below
`NUM_WORKERS`, and negative, outside `workers`, for a negative index. -/
def read_loop (env : Env) (file : List Nat) : Nat → Nat → Int → Nat → Transfer
  | 0, _, _, _ => { queued := [], exit := Exit.out_of_fuel }
  | fuel + 1, offset, chunk_index, k =>
    let buf := kernel_read env file CHUNK_SIZE offset k
    let ret := buf.length
    if ret = 0 then
      { queued := [], exit := Exit.done }
    else if env.kmalloc_ok k = false then
      { queued := [], exit := Exit.enomem }
    else
      let chunk : chunk_info :=
        { data := if env.kmemdup_ok k then some (buf.take ret) else none
          size := ret
          chunk_index := chunk_index }
      let chunk_index1 := toInt32 (chunk_index + 1)
      let w := Int.tmod chunk_index1 NUM_WORKERS
      if w < 0 then
        { queued := [], exit := Exit.fault chunk w }
      else
        let rest := read_loop env file fuel (offset + ret) chunk_index1 (k + 1)
        { queued := (w.toNat, chunk) :: rest.queued, exit := rest.exit }

/-- The read loop of `file_transfer` on a whole file: `offset = 0`, `chunk_index = 0`.
Every iteration that goes on reads at least one byte, so `length + 1` iterations suffice. -/
def file_transfer (env : Env) (file : List Nat) : Transfer :=
  read_loop env file (file.length + 1) 0 0 0

/-- The chunks created by the read loop, in creation order. -/
def Transfer.chunks (t : Transfer) : List chunk_info := t.queued.map Prod.snd

/-- The work queue of worker `w`: the chunks queued on `workers[w]`, in queueing order. -/
def Transfer.worker_queue (t : Transfer) (w : Nat) : List chunk_info :=
  (t.queued.filter (fun q => q.1 == w)).map Prod.snd

/-- The datagrams the sender emits, in the order their chunks were created. -/
def Transfer.frames (t : Transfer) : List (List Nat) := t.chunks.filterMap send_chunk

/-- An environment in which every read is full and every allocation succeeds. -/
def Env.ideal (env : Env) : Prop :=
  ∀ k, CHUNK_SIZE ≤ env.read_cap k ∧ env.kmalloc_ok k = true ∧ env.kmemdup_ok k = true

/-- The environment with full reads and successful allocations. -/
def Env.full : Env :=
  { read_cap := fun _ => CHUNK_SIZE, kmalloc_ok := fun _ => true, kmemdup_ok := fun _ => true }

/-- An environment whose reads return one byte at a time (allocations succeed). -/
def Env.bytewise : Env :=
  { read_cap := fun _ => 1, kmalloc_ok := fun _ => true, kmemdup_ok := fun _ => true }

/-- An environment in which reads are full and `kmalloc` fails. -/
def Env.no_memory : Env :=
  { read_cap := fun _ => CHUNK_SIZE, kmalloc_ok := fun _ => false, kmemdup_ok := fun _ => true }

/-! ## Reading of the receiver's behaviour on whole datagrams -/

/-- The chunk index a datagram of at least `sizeof(int)` bytes carries: its first four
bytes read as an `int`. -/
def frame_index (datagram : List Nat) : Int := bytes_int (datagram.take SIZEOF_INT)

/-- The payload a datagram carries for the receiver: the bytes after the index, up to the
`CHUNK_SIZE` bytes that fit `buf.data`. -/
def frame_payload (datagram : List Nat) : List Nat := (datagram.drop SIZEOF_INT).take CHUNK_SIZE

/-- The receiver's decoding of a datagram arriving in `buf`: the pair of `buf.index` and
the `data_size` bytes of `buf.data` that it passes to `fwrite`. -/
def received_chunk (buf datagram : List Nat) : Int × List Nat :=
  let r := recvfrom buf datagram
  (buf_index r.1, (buf_data r.1).take (toSizeT (data_size r.2)))

/-- Chunk index carried by a packet. -/
def Packet.index (p : Packet) : Int := frame_index p.datagram

/-- Payload carried by a packet. -/
def Packet.payload (p : Packet) : List Nat := frame_payload p.datagram

/-- A packet the receiver handles inside defined behaviour and writes in full: at least
`sizeof(int)` bytes long, index inside `received_chunks`, and the output stream accepts
the whole payload. -/
def Packet.valid (p : Packet) : Prop :=
  SIZEOF_INT ≤ p.datagram.length ∧ 0 ≤ p.index ∧ p.index < RECEIVED_CHUNKS_LEN ∧
    p.payload.length ≤ p.fwrite_room

instance (p : Packet) : Decidable p.valid := by
  unfold Packet.valid; infer_instance

/-- The packets of an arrival sequence that are the first to carry their chunk index, in
arrival order. -/
def first_arrivals : List Packet → List Packet
  | [] => []
  | p :: ps => p :: (first_arrivals ps).filter (fun q => decide (q.index ≠ p.index))

/-- The globals expected after the arrival sequence `ps`: an index is marked when some
packet carried it, and the first packet of every index contributed its payload. -/
def reassembled (ps : List Packet) : Client :=
  { received_chunks := fun i => if (i : Int) ∈ ps.map Packet.index then 1 else 0
    outfile := ((first_arrivals ps).map Packet.payload).flatten
    total_bytes_received := (((first_arrivals ps).map (fun p => p.payload.length)).sum : Nat)
    fwrite_log := (first_arrivals ps).map (fun p => (p.index, p.payload)) }

/-- The state after the receiver accepted packet `p` as new: index marked, payload
appended, counter advanced in `int` arithmetic. -/
def Client.accept (s : Client) (p : Packet) : Client :=
  { received_chunks := Function.update s.received_chunks p.index.toNat 1
    outfile := s.outfile ++ p.payload
    total_bytes_received := toInt32 (s.total_bytes_received + p.payload.length)
    fwrite_log := s.fwrite_log ++ [(p.index, p.payload)] }

/-- The globals after the call of `fwrite` for chunk `index` appended `written`: the index
is marked, the counter not yet advanced. -/
def Client.write (s : Client) (index : Int) (written : List Nat) : Client :=
  { received_chunks := Function.update s.received_chunks index.toNat 1
    outfile := s.outfile ++ written
    total_bytes_received := s.total_bytes_received
    fwrite_log := s.fwrite_log ++ [(index, written)] }

/-- Consistency of the history variable with the program state: no chunk index was passed
to `fwrite` twice, every index written is a marked subscript of `received_chunks`, and the
output file is the concatenation of the logged writes. -/
def Client.log_consistent (s : Client) : Prop :=
  (s.fwrite_log.map Prod.fst).Nodup ∧
    (∀ e ∈ s.fwrite_log, 0 ≤ e.1 ∧ s.received_chunks e.1.toNat ≠ 0) ∧
    s.outfile = (s.fwrite_log.map Prod.snd).flatten

/-- Delivery of datagrams to one receiving thread, each exactly once and in the given
order, with the output stream accepting every write in full. -/
def deliver (datagrams : List (List Nat)) : List (Option Packet) :=
  datagrams.map (fun d => some { datagram := d, fwrite_room := CHUNK_SIZE })

/-! ## Reading of the sender's behaviour on whole files -/

/-- Number of chunks of a file of `len` bytes: `len / CHUNK_SIZE` rounded up. -/
def num_chunks (len : Nat) : Nat := (len + CHUNK_SIZE - 1) / CHUNK_SIZE

/-- The largest value of an `int` plus one: the number of chunks the sender's `int
chunk_index` can number before it wraps. -/
def INT_LIMIT : Nat := 2147483648

/-- The bytes of chunk `k` of a file: at most `CHUNK_SIZE` bytes from offset
`k * CHUNK_SIZE`. -/
def chunk_payload (file : List Nat) (k : Nat) : List Nat :=
  (file.drop (k * CHUNK_SIZE)).take CHUNK_SIZE

/-- The datagram of chunk `k` of a file: the four bytes of the index `k`, then the bytes of
the chunk. -/
def chunk_frame (file : List Nat) (k : Nat) : List Nat :=
  int_bytes (k : Int) ++ chunk_payload file k

/-- The `k`-th call of `kthread_queue_work` on a file read in full chunks: the worker
subscript is the already incremented index modulo `NUM_WORKERS`; the chunk holds the bytes
of the file from offset `k * CHUNK_SIZE`, at most `CHUNK_SIZE` of them, under index `k`. -/
def queue_call (file : List Nat) (k : Nat) : Nat × chunk_info :=
  ((k + 1) % NUM_WORKERS,
    { data := some ((file.drop (k * CHUNK_SIZE)).take CHUNK_SIZE)
      size := min CHUNK_SIZE (file.length - k * CHUNK_SIZE)
      chunk_index := (k : Int) })

/-- The chunk record created for chunk number `2^31` of a file read in full chunks: the
`int chunk_index` has wrapped to `-2^31`. -/
def wrapped_chunk (file : List Nat) : chunk_info :=
  { data := some (chunk_payload file INT_LIMIT)
    size := (chunk_payload file INT_LIMIT).length
    chunk_index := -2147483648 }

/-- What holds of every run `t` of the read loop started at `offset` in iteration `k` with
`chunk_index = k`: the queueing calls number their chunks `k, k + 1, ...` and use the
incremented index modulo `NUM_WORKERS` as subscript; the index stays within `int`; a fault
happens exactly at chunk number `2^31`, whose index has wrapped; every chunk has at most
`CHUNK_SIZE` bytes and consumes at least one byte of the file. -/
def loop_shape (file : List Nat) (offset k : Nat) (t : Transfer) : Prop :=
  t.queued.map (fun q => (q.1, q.2.chunk_index)) =
      (List.range' k t.queued.length).map (fun (j : Nat) => ((j + 1) % NUM_WORKERS, (j : Int))) ∧
    k + t.queued.length ≤ INT_LIMIT ∧
    (∀ c w, t.exit = Exit.fault c w →
      k + t.queued.length = INT_LIMIT ∧ c.chunk_index = -2147483648 ∧ w = -3 ∧
        offset + t.queued.length < file.length) ∧
    offset + t.queued.length ≤ max offset file.length ∧
    (∀ q ∈ t.queued, 1 ≤ q.2.size ∧ q.2.size ≤ CHUNK_SIZE ∧
      ∀ d, q.2.data = some d → d.length = q.2.size)

/-! ## Machine integers and the wire format: lemmas -/

theorem toInt32_of_range {x : Int} (hlo : -2147483648 ≤ x) (hhi : x < 2147483648) :
    toInt32 x = x := by
  unfold toInt32; omega

theorem toInt32_range (x : Int) : -2147483648 ≤ toInt32 x ∧ toInt32 x < 2147483648 := by
  unfold toInt32; omega

theorem int_bytes_length (i : Int) : (int_bytes i).length = 4 := by
  simp [int_bytes]

theorem bytes_int_int_bytes_append (i : Int) (rest : List Nat) :
    bytes_int ((int_bytes i ++ rest).take SIZEOF_INT) = toInt32 i := by
  simp only [int_bytes, bytes_int, SIZEOF_INT, toInt32]
  simp
  omega

theorem data_size_of_le {n : Nat} (h4 : 4 ≤ n) (hn : n ≤ SIZEOF_CHUNK) :
    data_size n = ((n - 4 : Nat) : Int) := by
  simp only [data_size, toSizeT, toInt32, SIZEOF_INT, SIZEOF_CHUNK, CHUNK_SIZE] at *
  omega

theorem toSizeT_natCast {n : Nat} (hn : n < 18446744073709551616) : toSizeT (n : Int) = n := by
  unfold toSizeT; omega

theorem frame_payload_length (d : List Nat) :
    (frame_payload d).length = min d.length SIZEOF_CHUNK - 4 := by
  simp only [frame_payload, SIZEOF_INT, SIZEOF_CHUNK, CHUNK_SIZE, List.length_take, List.length_drop]
  omega

theorem frame_payload_length_le (d : List Nat) : (frame_payload d).length ≤ CHUNK_SIZE := by
  simp only [frame_payload, List.length_take]; omega

theorem recvfrom_snd (buf d : List Nat) : (recvfrom buf d).2 = min d.length SIZEOF_CHUNK := rfl

theorem recvfrom_index {buf d : List Nat} (h : SIZEOF_INT ≤ d.length) :
    buf_index (recvfrom buf d).1 = frame_index d := by
  simp only [buf_index, frame_index, recvfrom, SIZEOF_INT, SIZEOF_CHUNK, CHUNK_SIZE] at *
  rw [List.take_append_of_le_length (by simp; omega), List.take_take]
  congr 2
  omega

theorem recvfrom_data (buf : List Nat) {d : List Nat} (h : SIZEOF_INT ≤ d.length) :
    (buf_data (recvfrom buf d).1).take (min d.length SIZEOF_CHUNK - 4) = frame_payload d := by
  simp only [buf_data, frame_payload, recvfrom, SIZEOF_INT, SIZEOF_CHUNK, CHUNK_SIZE] at *
  apply List.ext_getElem?
  intro i
  simp only [List.getElem?_take, List.getElem?_drop, List.getElem?_append]
  by_cases h1 : i < min d.length (4 + 8192) - 4
  · have h2 : i < 8192 := by omega
    have h3 : 4 + i < min d.length (4 + 8192) := by omega
    simp [h1, h2, h3]
  · simp only [h1, if_false]
    by_cases h2 : i < 8192
    · simp only [h2, if_true]
      symm
      apply List.getElem?_eq_none
      omega
    · simp [h2]

/-! ## Receiver: lemmas -/

theorem receive_step_valid (s : Client) (buf : List Nat) {p : Packet} (hv : p.valid) :
    receive_step s buf (some p) =
      if s.received_chunks p.index.toNat = 0 then
        Outcome.running (s.accept p) (recvfrom buf p.datagram).1
      else Outcome.running s (recvfrom buf p.datagram).1 := by
  obtain ⟨h4, h0, hN, hroom⟩ := hv
  have hlen := frame_payload_length p.datagram
  have hle := frame_payload_length_le p.datagram
  have h4' : 4 ≤ min p.datagram.length SIZEOF_CHUNK := by
    simp only [SIZEOF_INT, SIZEOF_CHUNK, CHUNK_SIZE] at *; omega
  have hds : data_size (min p.datagram.length SIZEOF_CHUNK) = ((p.payload.length : Nat) : Int) := by
    rw [data_size_of_le h4' (Nat.min_le_right _ _)]; simp only [Packet.payload, hlen]
  have hcount : toSizeT ((p.payload.length : Nat) : Int) = p.payload.length := by
    rw [toSizeT_natCast]; simp only [Packet.payload, CHUNK_SIZE] at *; omega
  have hdata := recvfrom_data buf h4
  simp only [receive_step, recvfrom_snd, recvfrom_index h4, hds, hcount]
  have hidx : ¬ (frame_index p.datagram < 0 ∨ (RECEIVED_CHUNKS_LEN : Int) ≤ frame_index p.datagram) := by
    simp only [Packet.index] at h0 hN; omega
  rw [if_neg hidx]
  have hnot : ¬ CHUNK_SIZE < p.payload.length := by simp only [Packet.payload]; omega
  rw [if_neg hnot]
  have hmin : min p.payload.length p.fwrite_room = p.payload.length := Nat.min_eq_left hroom
  have hpay : List.take p.payload.length (buf_data (recvfrom buf p.datagram).1) = p.payload := by
    have e : p.payload.length = min p.datagram.length SIZEOF_CHUNK - 4 := hlen
    rw [e]; exact hdata
  rw [hmin, hpay]
  simp only [ne_eq, not_true_eq_false, if_false]
  rfl

theorem receive_chunks_append (s : Client) (buf : List Nat) (es fs : List (Option Packet)) :
    receive_chunks s buf (es ++ fs) =
      match receive_chunks s buf es with
      | Outcome.running s1 buf1 => receive_chunks s1 buf1 fs
      | o => o := by
  induction es generalizing s buf with
  | nil => simp [receive_chunks]
  | cons e es ih =>
    simp only [List.cons_append, receive_chunks]
    cases h : receive_step s buf e with
    | running s1 buf1 => exact ih s1 buf1
    | stopped s1 => rfl
    | fault f => rfl

theorem mem_first_arrivals_index (ps : List Packet) (i : Int) :
    i ∈ (first_arrivals ps).map Packet.index ↔ i ∈ ps.map Packet.index := by
  induction ps with
  | nil => simp [first_arrivals]
  | cons p ps ih =>
    simp only [first_arrivals, List.map_cons, List.mem_cons]
    simp only [List.mem_map, List.mem_filter, decide_eq_true_eq] at ih ⊢
    constructor
    · rintro (h | ⟨q, ⟨hq, _⟩, rfl⟩)
      · exact Or.inl h
      · exact Or.inr (ih.mp ⟨q, hq, rfl⟩)
    · rintro (h | h)
      · exact Or.inl h
      · by_cases hi : i = p.index
        · exact Or.inl hi
        · obtain ⟨q, hq, rfl⟩ := ih.mpr h
          exact Or.inr ⟨q, ⟨hq, hi⟩, rfl⟩

theorem first_arrivals_nodup (ps : List Packet) :
    ((first_arrivals ps).map Packet.index).Nodup := by
  induction ps with
  | nil => simp [first_arrivals]
  | cons p ps ih =>
    simp only [first_arrivals, List.map_cons, List.nodup_cons]
    refine ⟨?_, ?_⟩
    · simp only [List.mem_map, List.mem_filter, decide_eq_true_eq, not_exists, not_and]
      intro q hq hqp
      exact hq.2 hqp
    · exact (List.Nodup.sublist ((List.filter_sublist _).map _) ih)

theorem first_arrivals_sublist (ps : List Packet) : (first_arrivals ps).Sublist ps := by
  induction ps with
  | nil => simp [first_arrivals]
  | cons p ps ih =>
    simp only [first_arrivals]
    exact ((List.filter_sublist _).trans ih).cons₂ p

theorem first_arrivals_append_singleton (ps : List Packet) (p : Packet) :
    first_arrivals (ps ++ [p]) =
      first_arrivals ps ++ (if p.index ∈ ps.map Packet.index then [] else [p]) := by
  induction ps with
  | nil => simp [first_arrivals]
  | cons q ps ih =>
    rw [List.cons_append]
    simp only [first_arrivals]
    rw [ih]
    simp only [List.filter_append, List.map_cons, List.mem_cons]
    by_cases h1 : p.index ∈ ps.map Packet.index
    · simp [h1]
    · by_cases h2 : p.index = q.index
      · simp [h1, h2]
      · simp [h1, h2]

theorem first_arrivals_of_nodup {ps : List Packet} (h : (ps.map Packet.index).Nodup) :
    first_arrivals ps = ps := by
  induction ps with
  | nil => rfl
  | cons p ps ih =>
    simp only [List.map_cons, List.nodup_cons] at h
    simp only [first_arrivals, ih h.2]
    congr 1
    rw [List.filter_eq_self]
    intro q hq
    simp only [decide_eq_true_eq]
    intro hqp
    exact h.1 (hqp ▸ List.mem_map_of_mem _ hq)

/-- A duplicate-free list of array subscripts below `n` has at most `n` entries. -/
theorem length_le_of_nodup_of_bounded {l : List Int} {n : Nat} (hnd : l.Nodup)
    (hb : ∀ x ∈ l, 0 ≤ x ∧ x < n) : l.length ≤ n := by
  have hinj : (l.map Int.toNat).Nodup := by
    refine List.Nodup.map_on ?_ hnd
    intro x hx y hy hxy
    have := hb x hx; have := hb y hy
    omega
  have hsub : (l.map Int.toNat).toFinset ⊆ Finset.range n := by
    intro a ha
    simp only [List.mem_toFinset, List.mem_map] at ha
    obtain ⟨x, hx, rfl⟩ := ha
    have := hb x hx
    simp only [Finset.mem_range]; omega
  have hcard := Finset.card_le_card hsub
  rw [List.toFinset_card_of_nodup hinj, Finset.card_range, List.length_map] at hcard
  exact hcard

theorem sum_payload_length_le (ps : List Packet) :
    (ps.map (fun p => p.payload.length)).sum ≤ CHUNK_SIZE * ps.length := by
  induction ps with
  | nil => simp
  | cons p ps ih =>
    have := frame_payload_length_le p.datagram
    simp only [List.map_cons, List.sum_cons, List.length_cons, Packet.payload] at *
    rw [Nat.mul_succ]; omega

theorem first_arrivals_length_le {ps : List Packet} (hv : ∀ p ∈ ps, p.valid) :
    (first_arrivals ps).length ≤ RECEIVED_CHUNKS_LEN := by
  have h := length_le_of_nodup_of_bounded (n := RECEIVED_CHUNKS_LEN) (first_arrivals_nodup ps) (by
    intro x hx
    rw [mem_first_arrivals_index] at hx
    obtain ⟨p, hp, rfl⟩ := List.mem_map.mp hx
    exact ⟨(hv p hp).2.1, (hv p hp).2.2.1⟩)
  simpa using h

/-- The byte counter cannot overflow: the accepted payloads of valid packets sum to at most
`RECEIVED_CHUNKS_LEN * CHUNK_SIZE`, which is below `2^31`. -/
theorem sum_first_arrivals_lt {ps : List Packet} (hv : ∀ p ∈ ps, p.valid) :
    ((first_arrivals ps).map (fun p => p.payload.length)).sum ≤ 819200000 := by
  have h1 := sum_payload_length_le (first_arrivals ps)
  have h2 := first_arrivals_length_le hv
  have h3 : CHUNK_SIZE * (first_arrivals ps).length ≤ CHUNK_SIZE * RECEIVED_CHUNKS_LEN :=
    Nat.mul_le_mul_left _ h2
  have h4 : CHUNK_SIZE * RECEIVED_CHUNKS_LEN = 819200000 := by decide
  omega

theorem receive_chunks_singleton_valid (s : Client) (buf : List Nat) {p : Packet} (hv : p.valid) :
    receive_chunks s buf [some p] =
      if s.received_chunks p.index.toNat = 0 then
        Outcome.running (s.accept p) (recvfrom buf p.datagram).1
      else Outcome.running s (recvfrom buf p.datagram).1 := by
  rw [receive_chunks, receive_step_valid s buf hv]
  split_ifs <;> simp only [receive_chunks]

theorem reassembled_append_seen (ps : List Packet) {p : Packet}
    (h : p.index ∈ ps.map Packet.index) : reassembled (ps ++ [p]) = reassembled ps := by
  simp only [reassembled, first_arrivals_append_singleton, h, if_true, List.append_nil,
    List.map_append, List.mem_append, List.map_cons, List.map_nil, List.mem_singleton]
  congr 1
  funext i
  by_cases hi : (i : Int) ∈ ps.map Packet.index
  · simp [hi]
  · by_cases hp : (i : Int) = p.index
    · exact absurd (hp ▸ h) hi
    · simp [hi, hp]

theorem reassembled_append_new (ps : List Packet) {p : Packet} (hv : ∀ q ∈ ps ++ [p], q.valid)
    (h : p.index ∉ ps.map Packet.index) :
    reassembled (ps ++ [p]) = (reassembled ps).accept p := by
  have hp : p.valid := hv p (by simp)
  have hsum : ((first_arrivals ps).map (fun p => p.payload.length)).sum + p.payload.length
      ≤ 819200000 := by
    have h0 := sum_first_arrivals_lt hv
    rw [first_arrivals_append_singleton, if_neg h] at h0
    simpa using h0
  have hfa : first_arrivals (ps ++ [p]) = first_arrivals ps ++ [p] := by
    rw [first_arrivals_append_singleton, if_neg h]
  unfold reassembled Client.accept
  rw [hfa]
  simp only [List.map_append, List.map_cons, List.map_nil, List.flatten_append,
    List.flatten_cons, List.flatten_nil, List.append_nil, List.sum_append, List.sum_cons,
    List.sum_nil, Nat.add_zero]
  rw [Client.mk.injEq]
  refine ⟨?_, rfl, ?_, rfl⟩
  · funext i
    by_cases hi : i = p.index.toNat
    · have hc : (i : Int) = p.index := by have := hp.2.1; omega
      rw [hi, Function.update_same, if_pos]
      rw [← hi, hc]
      exact List.mem_append_right _ (List.mem_singleton_self _)
    · have hc : (i : Int) ≠ p.index := by omega
      rw [Function.update_noteq hi]
      have hiff : ((i : Int) ∈ List.map Packet.index ps ++ [p.index]) ↔
          (i : Int) ∈ List.map Packet.index ps := by
        simp [hc]
      simp only [hiff]
  · rw [toInt32_of_range] <;> omega

/-- Run of the receiver from its initial state over valid packets: the thread stays in its
loop and the globals are `reassembled ps`. -/
theorem receive_chunks_valid (buf : List Nat) (ps : List Packet) (hv : ∀ p ∈ ps, p.valid) :
    ∃ buf1, receive_chunks Client.init buf (ps.map some) = Outcome.running (reassembled ps) buf1 := by
  induction ps using List.reverseRecOn with
  | nil => exact ⟨buf, rfl⟩
  | append_singleton ps p ih =>
    obtain ⟨buf1, h1⟩ := ih (fun q hq => hv q (by simp [hq]))
    have hp : p.valid := hv p (by simp)
    rw [List.map_append, receive_chunks_append, h1]
    simp only [List.map_cons, List.map_nil]
    rw [receive_chunks_singleton_valid _ _ hp]
    by_cases hseen : p.index ∈ ps.map Packet.index
    · have hne : (reassembled ps).received_chunks p.index.toNat ≠ 0 := by
        have : ((p.index.toNat : Nat) : Int) = p.index := by have := hp.2.1; omega
        show (if ((p.index.toNat : Nat) : Int) ∈ ps.map Packet.index then (1 : Int) else 0) ≠ 0
        rw [this, if_pos hseen]; decide
      rw [if_neg hne, reassembled_append_seen ps hseen]
      exact ⟨_, rfl⟩
    · have he : (reassembled ps).received_chunks p.index.toNat = 0 := by
        have : ((p.index.toNat : Nat) : Int) = p.index := by have := hp.2.1; omega
        show (if ((p.index.toNat : Nat) : Int) ∈ ps.map Packet.index then (1 : Int) else 0) = 0
        rw [this, if_neg hseen]
      rw [if_pos he, reassembled_append_new ps hv hseen]
      exact ⟨_, rfl⟩

/-! ## Sender with full-length reads and successful allocations -/

theorem chunk_payload_length (file : List Nat) (k : Nat) :
    (chunk_payload file k).length = min CHUNK_SIZE (file.length - k * CHUNK_SIZE) := by
  simp only [chunk_payload, List.length_take, List.length_drop]

theorem chunk_payload_length_le (file : List Nat) (k : Nat) :
    (chunk_payload file k).length ≤ CHUNK_SIZE := by
  rw [chunk_payload_length]; exact Nat.min_le_left _ _

theorem kernel_read_ideal {env : Env} (he : env.ideal) (file : List Nat) (offset k : Nat) :
    kernel_read env file CHUNK_SIZE offset k = (file.drop offset).take CHUNK_SIZE := by
  unfold kernel_read
  rw [List.take_take, Nat.min_eq_right (he k).1]

theorem toInt32_natCast {k : Nat} (hk : k < INT_LIMIT) : toInt32 (k : Int) = k := by
  simp only [INT_LIMIT] at hk
  exact toInt32_of_range (by omega) (by omega)

theorem worker_subscript {k : Nat} (hk : k < INT_LIMIT) :
    Int.tmod (toInt32 (toInt32 (k : Int) + 1)) (NUM_WORKERS : Int) = (((k + 1) % NUM_WORKERS : Nat) : Int) := by
  rw [toInt32_natCast hk]
  simp only [INT_LIMIT, NUM_WORKERS] at *
  by_cases h : k + 1 < 2147483648
  · rw [toInt32_of_range (by omega) (by omega), Int.tmod_eq_emod (by omega) (by decide)]
    omega
  · have hk2 : k = 2147483647 := by omega
    subst hk2
    decide

theorem read_loop_ideal {env : Env} (he : env.ideal) (file : List Nat) :
    ∀ (fuel k : Nat), k ≤ INT_LIMIT → file.length < min (k * CHUNK_SIZE) file.length + fuel →
      read_loop env file fuel (min (k * CHUNK_SIZE) file.length) (toInt32 (k : Int)) k =
        { queued := (List.range' k (min (num_chunks file.length) INT_LIMIT - k)).map (queue_call file)
          exit := if num_chunks file.length ≤ INT_LIMIT then Exit.done
            else Exit.fault (wrapped_chunk file) (-3) } := by
  intro fuel
  induction fuel with
  | zero => intro k _ h; omega
  | succ fuel ih =>
    intro k hk hfuel
    rw [read_loop]
    simp only [kernel_read_ideal he, (he k).2.1, (he k).2.2, if_true, List.length_take,
      List.length_drop, Bool.true_eq_false, if_false]
    by_cases hend : file.length ≤ k * CHUNK_SIZE
    · have h0 : min CHUNK_SIZE (file.length - min (k * CHUNK_SIZE) file.length) = 0 := by omega
      have hn : num_chunks file.length ≤ k := by
        simp only [num_chunks, CHUNK_SIZE] at *; omega
      have h1 : min (num_chunks file.length) INT_LIMIT - k = 0 := by omega
      have h2 : num_chunks file.length ≤ INT_LIMIT := by omega
      simp only [h0, h1, h2, if_true, List.range'_zero, List.map_nil]
    · have hoff : min (k * CHUNK_SIZE) file.length = k * CHUNK_SIZE := by omega
      have hret : min CHUNK_SIZE (file.length - k * CHUNK_SIZE) ≠ 0 := by
        simp only [CHUNK_SIZE] at *; omega
      have hn : k < num_chunks file.length := by
        simp only [num_chunks, CHUNK_SIZE] at *; omega
      rw [hoff]
      simp only [hret, if_false]
      by_cases hk2 : k = INT_LIMIT
      · have hw : Int.tmod (toInt32 (toInt32 (k : Int) + 1)) (NUM_WORKERS : Int) < 0 := by
          rw [hk2]; decide
        have h1 : min (num_chunks file.length) INT_LIMIT - k = 0 := by omega
        have h2 : ¬ num_chunks file.length ≤ INT_LIMIT := by omega
        have hdata : List.take (min CHUNK_SIZE (file.length - k * CHUNK_SIZE))
            (List.take CHUNK_SIZE (List.drop (k * CHUNK_SIZE) file)) =
            chunk_payload file k := by
          apply List.take_of_length_le
          simp only [List.length_take, List.length_drop]
          exact le_refl _
        have hsize : min CHUNK_SIZE (file.length - k * CHUNK_SIZE) =
            (chunk_payload file k).length := (chunk_payload_length file k).symm
        have hidx : toInt32 (k : Int) = -2147483648 := by rw [hk2]; decide
        have hsub : Int.tmod (toInt32 (toInt32 (k : Int) + 1)) (NUM_WORKERS : Int) = -3 := by
          rw [hk2]; decide
        simp only [hw, h1, h2, if_true, if_false, List.range'_zero, List.map_nil, hdata]
        rw [hsize, hsub, hidx, hk2]
        rfl
      · have hk3 : k < INT_LIMIT := by omega
        have hw := worker_subscript hk3
        rw [toInt32_natCast hk3] at hw
        have hw0 : ¬ ((((k + 1) % NUM_WORKERS : Nat) : Int) < 0) := by omega
        have hnext : k * CHUNK_SIZE + min CHUNK_SIZE (file.length - k * CHUNK_SIZE) =
            min ((k + 1) * CHUNK_SIZE) file.length := by
          simp only [CHUNK_SIZE] at *; omega
        have hfuel2 : file.length < min ((k + 1) * CHUNK_SIZE) file.length + fuel := by
          simp only [CHUNK_SIZE] at *; omega
        have hrec := ih (k + 1) (by omega) hfuel2
        rw [Nat.cast_add, Nat.cast_one] at hrec
        have hlen : min (num_chunks file.length) INT_LIMIT - k =
            (min (num_chunks file.length) INT_LIMIT - (k + 1)) + 1 := by omega
        have hdata : List.take (min CHUNK_SIZE (file.length - k * CHUNK_SIZE))
            (List.take CHUNK_SIZE (List.drop (k * CHUNK_SIZE) file)) =
            List.take CHUNK_SIZE (List.drop (k * CHUNK_SIZE) file) := by
          apply List.take_of_length_le
          simp only [List.length_take, List.length_drop]
          exact le_refl _
        simp only [toInt32_natCast hk3, hnext, hrec, hlen, List.range'_succ, List.map_cons, hw,
          hw0, if_false, hdata, Int.toNat_ofNat, queue_call]

theorem file_transfer_ideal {env : Env} (he : env.ideal) (file : List Nat) :
    file_transfer env file =
      { queued := (List.range (min (num_chunks file.length) INT_LIMIT)).map (queue_call file)
        exit := if num_chunks file.length ≤ INT_LIMIT then Exit.done
          else Exit.fault (wrapped_chunk file) (-3) } := by
  have h := read_loop_ideal he file (file.length + 1) 0 (Nat.zero_le _) (by omega)
  simp only [Nat.zero_mul, Nat.zero_min, Nat.sub_zero, Nat.cast_zero] at h
  have h0 : toInt32 0 = 0 := by decide
  rw [h0] at h
  rw [file_transfer, h, List.range_eq_range']

theorem num_chunks_le_iff (len n : Nat) : num_chunks len ≤ n ↔ len ≤ n * CHUNK_SIZE := by
  simp only [num_chunks, CHUNK_SIZE]; omega

theorem lt_num_chunks_iff (len k : Nat) : k < num_chunks len ↔ k * CHUNK_SIZE < len := by
  simp only [num_chunks, CHUNK_SIZE]; omega

/-- Under an ideal environment and within the range of `int`, the read loop ends normally
after queueing `queue_call file k` for every `k` below the number of chunks. -/
theorem file_transfer_bounded {env : Env} (he : env.ideal) {file : List Nat}
    (hlen : file.length ≤ INT_LIMIT * CHUNK_SIZE) :
    file_transfer env file =
      { queued := (List.range (num_chunks file.length)).map (queue_call file), exit := Exit.done } := by
  have hn : num_chunks file.length ≤ INT_LIMIT := (num_chunks_le_iff _ _).mpr hlen
  rw [file_transfer_ideal he, Nat.min_eq_left hn, if_pos hn]

theorem send_chunk_queue_call (file : List Nat) (k : Nat) :
    send_chunk (queue_call file k).2 =
      some (int_bytes (k : Int) ++ (file.drop (k * CHUNK_SIZE)).take CHUNK_SIZE) := by
  simp only [send_chunk, queue_call]
  congr 2
  apply List.take_of_length_le
  simp only [List.length_take, List.length_drop]
  exact le_refl _

/-- The datagram of chunk `k` of a file. -/
theorem frames_bounded {env : Env} (he : env.ideal) {file : List Nat}
    (hlen : file.length ≤ INT_LIMIT * CHUNK_SIZE) :
    (file_transfer env file).frames =
      (List.range (num_chunks file.length)).map
        (fun (k : Nat) => int_bytes (k : Int) ++ (file.drop (k * CHUNK_SIZE)).take CHUNK_SIZE) := by
  rw [file_transfer_bounded he hlen]
  simp only [Transfer.frames, Transfer.chunks, List.map_map]
  rw [List.filterMap_map]
  have : (send_chunk ∘ (Prod.snd ∘ queue_call file)) =
      fun (k : Nat) => some (int_bytes (k : Int) ++ (file.drop (k * CHUNK_SIZE)).take CHUNK_SIZE) := by
    funext k; exact send_chunk_queue_call file k
  rw [this]
  induction (List.range (num_chunks file.length)) with
  | nil => rfl
  | cons a l ih => simp only [List.filterMap_cons, List.map_cons, ih]

theorem flatten_chunks (n : Nat) : ∀ (l : List Nat), l.length ≤ n * CHUNK_SIZE →
    ((List.range n).map (fun k => (l.drop (k * CHUNK_SIZE)).take CHUNK_SIZE)).flatten = l := by
  induction n with
  | zero =>
    intro l hl
    have : l = [] := List.eq_nil_of_length_eq_zero (by omega)
    simp [this]
  | succ n ih =>
    intro l hl
    rw [List.range_succ_eq_map, List.map_cons, List.map_map, List.flatten_cons]
    have hrest : ((fun k => List.take CHUNK_SIZE (List.drop (k * CHUNK_SIZE) l)) ∘ Nat.succ) =
        fun k => List.take CHUNK_SIZE (List.drop (k * CHUNK_SIZE) (l.drop CHUNK_SIZE)) := by
      funext k
      simp only [Function.comp, List.drop_drop]
      congr 2
      rw [Nat.succ_mul]; omega
    rw [hrest, ih (l.drop CHUNK_SIZE) (by rw [List.length_drop, Nat.succ_mul] at *; omega)]
    simp

theorem frame_index_append (i : Int) (d : List Nat) :
    frame_index (int_bytes i ++ d) = toInt32 i := by
  unfold frame_index; exact bytes_int_int_bytes_append i d

theorem frame_payload_append (i : Int) {d : List Nat} (hd : d.length ≤ CHUNK_SIZE) :
    frame_payload (int_bytes i ++ d) = d := by
  unfold frame_payload
  rw [List.drop_append_of_le_length (by simp [int_bytes_length, SIZEOF_INT])]
  have : List.drop SIZEOF_INT (int_bytes i) = [] := by
    apply List.drop_of_length_le; simp [int_bytes_length, SIZEOF_INT]
  rw [this, List.nil_append]
  exact List.take_of_length_le hd

theorem chunk_frame_length (file : List Nat) (k : Nat) :
    (chunk_frame file k).length = 4 + (chunk_payload file k).length := by
  simp only [chunk_frame, List.length_append, int_bytes_length]

theorem frame_index_chunk_frame (file : List Nat) {k : Nat} (hk : k < INT_LIMIT) :
    frame_index (chunk_frame file k) = k := by
  rw [chunk_frame, frame_index_append, toInt32_natCast hk]

theorem frame_payload_chunk_frame (file : List Nat) (k : Nat) :
    frame_payload (chunk_frame file k) = chunk_payload file k := by
  rw [chunk_frame, frame_payload_append _ (chunk_payload_length_le file k)]

theorem frames_eq_chunk_frames {env : Env} (he : env.ideal) {file : List Nat}
    (hlen : file.length ≤ INT_LIMIT * CHUNK_SIZE) :
    (file_transfer env file).frames = (List.range (num_chunks file.length)).map (chunk_frame file) :=
  frames_bounded he hlen

theorem mem_frames {env : Env} (he : env.ideal) {file : List Nat}
    (hlen : file.length ≤ INT_LIMIT * CHUNK_SIZE) (d : List Nat) :
    d ∈ (file_transfer env file).frames ↔
      ∃ k, k < num_chunks file.length ∧ chunk_frame file k = d := by
  rw [frames_eq_chunk_frames he hlen, List.mem_map]
  simp only [List.mem_range]

theorem received_len_le_int_limit {len : Nat} (h : len ≤ RECEIVED_CHUNKS_LEN * CHUNK_SIZE) :
    len ≤ INT_LIMIT * CHUNK_SIZE := by
  simp only [RECEIVED_CHUNKS_LEN, CHUNK_SIZE, INT_LIMIT] at *; omega

/-! ## Receiver: repeated events, faults and the write history -/

theorem recvfrom_idem (buf d : List Nat) : recvfrom (recvfrom buf d).1 d = recvfrom buf d := by
  simp only [recvfrom]
  congr 1
  congr 1
  rw [List.drop_append_of_le_length (by simp)]
  have : List.drop (min d.length SIZEOF_CHUNK) (List.take (min d.length SIZEOF_CHUNK) d) = [] := by
    apply List.drop_of_length_le; simp
  rw [this, List.nil_append]

/-- The possible results of one iteration on a delivered datagram. -/
theorem receive_step_cases (s : Client) (buf : List Nat) (p : Packet) :
    receive_step s buf (some p) = Outcome.fault Fault.index_out_of_bounds ∨
    receive_step s buf (some p) = Outcome.fault Fault.read_past_buffer ∨
    (∃ written total,
      0 ≤ buf_index (recvfrom buf p.datagram).1 ∧
      buf_index (recvfrom buf p.datagram).1 < RECEIVED_CHUNKS_LEN ∧
      s.received_chunks (buf_index (recvfrom buf p.datagram).1).toNat = 0 ∧
      (receive_step s buf (some p) =
          Outcome.stopped (s.write (buf_index (recvfrom buf p.datagram).1) written) ∨
        receive_step s buf (some p) =
          Outcome.running
            { s.write (buf_index (recvfrom buf p.datagram).1) written with
              total_bytes_received := total }
            (recvfrom buf p.datagram).1)) ∨
    (0 ≤ buf_index (recvfrom buf p.datagram).1 ∧
      buf_index (recvfrom buf p.datagram).1 < RECEIVED_CHUNKS_LEN ∧
      s.received_chunks (buf_index (recvfrom buf p.datagram).1).toNat ≠ 0 ∧
      receive_step s buf (some p) = Outcome.running s (recvfrom buf p.datagram).1) := by
  simp only [receive_step]
  split_ifs with h1 h2 h3 h4
  · exact Or.inl rfl
  · exact Or.inr (Or.inl rfl)
  · refine Or.inr (Or.inr (Or.inl ⟨_, s.total_bytes_received, ?_, ?_, h2, Or.inl rfl⟩))
    · exact Int.not_lt.mp (fun h => h1 (Or.inl h))
    · exact Int.not_le.mp (fun h => h1 (Or.inr h))
  · refine Or.inr (Or.inr (Or.inl ⟨_, _, ?_, ?_, h2, Or.inr rfl⟩))
    · exact Int.not_lt.mp (fun h => h1 (Or.inl h))
    · exact Int.not_le.mp (fun h => h1 (Or.inr h))
  · refine Or.inr (Or.inr (Or.inr ⟨?_, ?_, h2, rfl⟩))
    · exact Int.not_lt.mp (fun h => h1 (Or.inl h))
    · exact Int.not_le.mp (fun h => h1 (Or.inr h))

theorem receive_step_seen (s : Client) (buf : List Nat) (p : Packet)
    (h0 : 0 ≤ buf_index (recvfrom buf p.datagram).1)
    (hN : buf_index (recvfrom buf p.datagram).1 < RECEIVED_CHUNKS_LEN)
    (hs : s.received_chunks (buf_index (recvfrom buf p.datagram).1).toNat ≠ 0) :
    receive_step s buf (some p) = Outcome.running s (recvfrom buf p.datagram).1 := by
  simp only [receive_step]
  rw [if_neg (by intro h; rcases h with h | h; exact absurd h0 (Int.not_le.mpr h); exact absurd hN (Int.not_lt.mpr h)),
    if_neg hs]

theorem receive_chunks_cons_running {s : Client} {buf : List Nat} {e : Option Packet}
    {s1 : Client} {buf1 : List Nat} (h : receive_step s buf e = Outcome.running s1 buf1)
    (es : List (Option Packet)) :
    receive_chunks s buf (e :: es) = receive_chunks s1 buf1 es := by
  rw [receive_chunks, h]

theorem receive_chunks_cons_stopped {s : Client} {buf : List Nat} {e : Option Packet}
    {s1 : Client} (h : receive_step s buf e = Outcome.stopped s1) (es : List (Option Packet)) :
    receive_chunks s buf (e :: es) = Outcome.stopped s1 := by
  rw [receive_chunks, h]

theorem receive_chunks_cons_fault {s : Client} {buf : List Nat} {e : Option Packet}
    {f : Fault} (h : receive_step s buf e = Outcome.fault f) (es : List (Option Packet)) :
    receive_chunks s buf (e :: es) = Outcome.fault f := by
  rw [receive_chunks, h]

/-- Handling the same event twice in a row gives the result of handling it once. -/
theorem receive_chunks_twice (s : Client) (buf : List Nat) (e : Option Packet) :
    receive_chunks s buf [e, e] = receive_chunks s buf [e] := by
  cases e with
  | none => simp only [receive_chunks, receive_step]
  | some p =>
    rcases receive_step_cases s buf p with h | h | ⟨w, t, h0, hN, _, h | h⟩ | ⟨h0, hN, hs, h⟩
    · rw [receive_chunks_cons_fault h, receive_chunks_cons_fault h]
    · rw [receive_chunks_cons_fault h, receive_chunks_cons_fault h]
    · rw [receive_chunks_cons_stopped h, receive_chunks_cons_stopped h]
    · rw [receive_chunks_cons_running h, receive_chunks_cons_running h]
      have h2 := receive_step_seen
        { s.write (buf_index (recvfrom buf p.datagram).1) w with total_bytes_received := t }
        (recvfrom buf p.datagram).1 p (by rw [recvfrom_idem]; exact h0)
        (by rw [recvfrom_idem]; exact hN)
        (by rw [recvfrom_idem]; simp [Client.write])
      rw [recvfrom_idem] at h2
      rw [receive_chunks_cons_running h2]
    · rw [receive_chunks_cons_running h, receive_chunks_cons_running h]
      have h2 := receive_step_seen s (recvfrom buf p.datagram).1 p
        (by rw [recvfrom_idem]; exact h0) (by rw [recvfrom_idem]; exact hN)
        (by rw [recvfrom_idem]; exact hs)
      rw [recvfrom_idem] at h2
      rw [receive_chunks_cons_running h2]

theorem log_consistent_init : Client.init.log_consistent := by
  simp [Client.log_consistent, Client.init]

theorem log_consistent_write {s : Client} (hs : s.log_consistent) {index : Int}
    (h0 : 0 ≤ index) (hfresh : s.received_chunks index.toNat = 0) (written : List Nat)
    (total : Int) :
    Client.log_consistent { s.write index written with total_bytes_received := total } := by
  obtain ⟨hnd, hmark, hout⟩ := hs
  refine ⟨?_, ?_, ?_⟩
  · simp only [Client.write, List.map_append, List.map_cons, List.map_nil]
    rw [List.nodup_append]
    refine ⟨hnd, List.nodup_singleton _, ?_⟩
    intro a ha hb
    rw [List.mem_singleton] at hb
    subst hb
    obtain ⟨e, he, rfl⟩ := List.mem_map.mp ha
    exact (hmark e he).2 hfresh
  · intro e he
    simp only [Client.write, List.mem_append, List.mem_singleton] at he ⊢
    rcases he with he | rfl
    · refine ⟨(hmark e he).1, ?_⟩
      by_cases heq : e.1.toNat = index.toNat
      · rw [heq, Function.update_same]; decide
      · rw [Function.update_noteq heq]; exact (hmark e he).2
    · refine ⟨h0, ?_⟩
      rw [Function.update_same]; decide
  · simp only [Client.write, List.map_append, List.map_cons, List.map_nil, List.flatten_append,
      List.flatten_cons, List.flatten_nil, List.append_nil, hout]

theorem log_consistent_run (es : List (Option Packet)) :
    ∀ (s : Client) (buf : List Nat), s.log_consistent →
      ∀ s1, ((∃ buf1, receive_chunks s buf es = Outcome.running s1 buf1) ∨
          receive_chunks s buf es = Outcome.stopped s1) → s1.log_consistent := by
  induction es with
  | nil =>
    intro s buf hs s1 h
    rcases h with ⟨b, h⟩ | h
    · simp only [receive_chunks] at h
      cases h; exact hs
    · simp only [receive_chunks] at h
      cases h
  | cons e es ih =>
    intro s buf hs s1 h
    cases e with
    | none =>
      simp only [receive_chunks, receive_step] at h
      rcases h with ⟨b, h⟩ | h
      · cases h
      · cases h; exact hs
    | some p =>
      rw [receive_chunks] at h
      rcases receive_step_cases s buf p with h' | h' | ⟨w, t, h0, hN, hf, h' | h'⟩ | ⟨h0, hN, hm, h'⟩
      · rw [h'] at h; rcases h with ⟨b, h⟩ | h <;> cases h
      · rw [h'] at h; rcases h with ⟨b, h⟩ | h <;> cases h
      · rw [h'] at h
        rcases h with ⟨b, h⟩ | h
        · cases h
        · cases h
          exact log_consistent_write hs h0 hf w s.total_bytes_received
      · rw [h'] at h
        exact ih _ _ (log_consistent_write hs h0 hf w t) s1 h
      · rw [h'] at h
        exact ih _ _ hs s1 h

theorem data_size_short {n : Nat} (hn : n < 4) : CHUNK_SIZE < toSizeT (data_size n) := by
  interval_cases n <;> decide

/-- A datagram shorter than `sizeof(int)` is not rejected: when the index read from `buf`
(new bytes followed by stale ones) is an unmarked subscript of `received_chunks`, the
iteration reaches `fwrite` with a count beyond the size of `buf.data`. -/
theorem receive_step_short (s : Client) (buf : List Nat) (p : Packet)
    (hlen : p.datagram.length < SIZEOF_INT)
    (h0 : 0 ≤ buf_index (recvfrom buf p.datagram).1)
    (hN : buf_index (recvfrom buf p.datagram).1 < RECEIVED_CHUNKS_LEN)
    (hfresh : s.received_chunks (buf_index (recvfrom buf p.datagram).1).toNat = 0) :
    receive_step s buf (some p) = Outcome.fault Fault.read_past_buffer := by
  have hn : min p.datagram.length SIZEOF_CHUNK < 4 := by
    simp only [SIZEOF_INT] at hlen
    exact lt_of_le_of_lt (Nat.min_le_left _ _) hlen
  simp only [receive_step, recvfrom_snd]
  rw [if_neg (by
      intro h
      rcases h with h | h
      · exact absurd h0 (Int.not_le.mpr h)
      · exact absurd hN (Int.not_lt.mpr h)),
    if_pos hfresh, if_pos (data_size_short hn)]

/-- On a datagram of at least `sizeof(int)` bytes whose index is a subscript of
`received_chunks`, one iteration stays inside defined behaviour. -/
theorem receive_step_no_fault (s : Client) (buf : List Nat) {p : Packet}
    (h4 : SIZEOF_INT ≤ p.datagram.length) (h0 : 0 ≤ p.index)
    (hN : p.index < RECEIVED_CHUNKS_LEN) (f : Fault) :
    receive_step s buf (some p) ≠ Outcome.fault f := by
  have h4n : 4 ≤ min p.datagram.length SIZEOF_CHUNK := by
    simp only [SIZEOF_INT, SIZEOF_CHUNK, CHUNK_SIZE] at *; omega
  have hcount : ¬ CHUNK_SIZE < toSizeT (data_size (min p.datagram.length SIZEOF_CHUNK)) := by
    rw [data_size_of_le h4n (Nat.min_le_right _ _), toSizeT_natCast]
    · have : min p.datagram.length SIZEOF_CHUNK ≤ SIZEOF_CHUNK := Nat.min_le_right _ _
      simp only [SIZEOF_INT, SIZEOF_CHUNK, CHUNK_SIZE] at *; omega
    · have : min p.datagram.length SIZEOF_CHUNK ≤ SIZEOF_CHUNK := Nat.min_le_right _ _
      simp only [SIZEOF_INT, SIZEOF_CHUNK, CHUNK_SIZE] at *; omega
  have hidx : ¬ (frame_index p.datagram < 0 ∨ (RECEIVED_CHUNKS_LEN : Int) ≤ frame_index p.datagram) := by
    intro h
    rcases h with h | h
    · exact absurd h0 (Int.not_le.mpr h)
    · exact absurd hN (Int.not_lt.mpr h)
  simp only [receive_step, recvfrom_snd, recvfrom_index h4]
  rw [if_neg hidx]
  split_ifs <;> (intro h; cases h)

theorem receive_step_out_of_bounds (s : Client) (buf : List Nat) {p : Packet}
    (h4 : SIZEOF_INT ≤ p.datagram.length)
    (h : p.index < 0 ∨ (RECEIVED_CHUNKS_LEN : Int) ≤ p.index) :
    receive_step s buf (some p) = Outcome.fault Fault.index_out_of_bounds := by
  have h2 : frame_index p.datagram < 0 ∨ (RECEIVED_CHUNKS_LEN : Int) ≤ frame_index p.datagram := h
  simp only [receive_step, recvfrom_index h4]
  rw [if_pos h2]

theorem receive_chunks_no_fault (ps : List Packet) :
    ∀ (s : Client) (buf : List Nat),
      (∀ p ∈ ps, SIZEOF_INT ≤ p.datagram.length ∧ 0 ≤ p.index ∧ p.index < RECEIVED_CHUNKS_LEN) →
      ∀ f, receive_chunks s buf (ps.map some) ≠ Outcome.fault f := by
  induction ps with
  | nil => intro s buf _ f h; simp only [List.map_nil, receive_chunks] at h; cases h
  | cons p ps ih =>
    intro s buf hp f
    have hp1 := hp p (List.mem_cons_self _ _)
    have hnf := receive_step_no_fault s buf hp1.1 hp1.2.1 hp1.2.2
    rw [List.map_cons]
    cases hstep : receive_step s buf (some p) with
    | running s1 buf1 =>
      rw [receive_chunks_cons_running hstep]
      exact ih s1 buf1 (fun q hq => hp q (List.mem_cons_of_mem _ hq)) f
    | stopped s1 =>
      rw [receive_chunks_cons_stopped hstep]
      intro h; cases h
    | fault g => exact absurd hstep (hnf g)

/-- One iteration on a datagram of at least `sizeof(int)` bytes whose index is a subscript
of `received_chunks`: a marked index is skipped; a new index is marked and its payload is
passed to `fwrite`, and when `fwrite` does not accept all of it the thread breaks without
advancing the counter. -/
theorem receive_step_in_bounds (s : Client) (buf : List Nat) {p : Packet}
    (h4 : SIZEOF_INT ≤ p.datagram.length) (h0 : 0 ≤ p.index)
    (hN : p.index < RECEIVED_CHUNKS_LEN) :
    receive_step s buf (some p) =
      if s.received_chunks p.index.toNat = 0 then
        if p.payload.length ≤ p.fwrite_room then
          Outcome.running (s.accept p) (recvfrom buf p.datagram).1
        else Outcome.stopped (s.write p.index (p.payload.take p.fwrite_room))
      else Outcome.running s (recvfrom buf p.datagram).1 := by
  by_cases hroom : p.payload.length ≤ p.fwrite_room
  · rw [receive_step_valid s buf ⟨h4, h0, hN, hroom⟩, if_pos hroom]
  · rw [if_neg hroom]
    have hlen := frame_payload_length p.datagram
    have hle := frame_payload_length_le p.datagram
    have h4n : 4 ≤ min p.datagram.length SIZEOF_CHUNK := by
      simp only [SIZEOF_INT, SIZEOF_CHUNK, CHUNK_SIZE] at *; omega
    have hds : data_size (min p.datagram.length SIZEOF_CHUNK) = ((p.payload.length : Nat) : Int) := by
      rw [data_size_of_le h4n (Nat.min_le_right _ _)]; simp only [Packet.payload, hlen]
    have hcount : toSizeT ((p.payload.length : Nat) : Int) = p.payload.length := by
      rw [toSizeT_natCast]; simp only [Packet.payload, CHUNK_SIZE] at *; omega
    have hdata := recvfrom_data buf h4
    simp only [receive_step, recvfrom_snd, recvfrom_index h4, hds, hcount]
    have hidx : ¬ (frame_index p.datagram < 0 ∨
        (RECEIVED_CHUNKS_LEN : Int) ≤ frame_index p.datagram) := by
      intro h
      rcases h with h | h
      · exact absurd h0 (Int.not_le.mpr h)
      · exact absurd hN (Int.not_lt.mpr h)
    rw [if_neg hidx]
    have hnot : ¬ CHUNK_SIZE < p.payload.length := Nat.not_lt.mpr hle
    rw [if_neg hnot]
    have hmin : min p.payload.length p.fwrite_room = p.fwrite_room :=
      Nat.min_eq_right (Nat.le_of_lt (Nat.not_le.mp hroom))
    have hne : p.fwrite_room ≠ p.payload.length := Nat.ne_of_lt (Nat.not_le.mp hroom)
    have hpay : List.take p.fwrite_room (buf_data (recvfrom buf p.datagram).1) =
        p.payload.take p.fwrite_room := by
      have e : p.payload = List.take (min p.datagram.length SIZEOF_CHUNK - 4)
          (buf_data (recvfrom buf p.datagram).1) := hdata.symm
      have hlen2 : p.payload.length = min p.datagram.length SIZEOF_CHUNK - 4 := hlen
      rw [e, List.take_take, Nat.min_eq_left (by rw [← hlen2]; exact Nat.le_of_lt (Nat.not_le.mp hroom))]
    rw [hmin, hpay]
    simp only [ne_eq, hne, not_false_eq_true, if_true]
    rfl

theorem receive_chunks_singleton_in_bounds (s : Client) (buf : List Nat) {p : Packet}
    (h4 : SIZEOF_INT ≤ p.datagram.length) (h0 : 0 ≤ p.index)
    (hN : p.index < RECEIVED_CHUNKS_LEN) :
    receive_chunks s buf [some p] =
      if s.received_chunks p.index.toNat = 0 then
        if p.payload.length ≤ p.fwrite_room then
          Outcome.running (s.accept p) (recvfrom buf p.datagram).1
        else Outcome.stopped (s.write p.index (p.payload.take p.fwrite_room))
      else Outcome.running s (recvfrom buf p.datagram).1 := by
  rw [receive_chunks, receive_step_in_bounds s buf h4 h0 hN]
  split_ifs <;> simp only [receive_chunks]

/-! ## Receiver fed by the sender -/

/-- The counter after four of five chunks: when every packet of `ps` carries a datagram of
a five-chunk file other than chunk 2 and chunks 0, 1, 3, 4 all arrive, the accepted payload
lengths sum to the sizes of those four chunks. -/
theorem sum_first_arrivals_gap {env : Env} (he : env.ideal) {file : List Nat}
    (h5 : num_chunks file.length = 5) {ps : List Packet}
    (hps : ∀ p ∈ ps, p.datagram ∈ (file_transfer env file).frames ∧ p.index ≠ 2)
    (hall : ∀ k ∈ [0, 1, 3, 4], (k : Int) ∈ ps.map Packet.index) :
    ((first_arrivals ps).map (fun p => p.payload.length)).sum =
      (chunk_payload file 0).length + (chunk_payload file 1).length +
        (chunk_payload file 3).length + (chunk_payload file 4).length := by
  have hlen : file.length ≤ INT_LIMIT * CHUNK_SIZE := by
    have := (num_chunks_le_iff file.length 5).mp (by omega)
    simp only [INT_LIMIT, CHUNK_SIZE] at *; omega
  have hdec : ∀ p ∈ ps, ∃ k : Nat, k < 5 ∧ k ≠ 2 ∧ p.index = k ∧
      p.payload = chunk_payload file k := by
    intro p hp
    obtain ⟨hmem, hne⟩ := hps p hp
    obtain ⟨k, hk, hd⟩ := (mem_frames he hlen p.datagram).mp hmem
    rw [h5] at hk
    have hk3 : k < INT_LIMIT := by simp only [INT_LIMIT]; omega
    have hidx : p.index = k := by
      rw [Packet.index, ← hd, frame_index_chunk_frame file hk3]
    refine ⟨k, hk, ?_, hidx, ?_⟩
    · intro h2; subst h2; exact hne hidx
    · rw [Packet.payload, ← hd, frame_payload_chunk_frame]
  have hmap : (first_arrivals ps).map (fun p => p.payload.length) =
      ((first_arrivals ps).map Packet.index).map
        (fun i => (chunk_payload file i.toNat).length) := by
    rw [List.map_map]
    refine List.map_congr_left (fun p hp => ?_)
    obtain ⟨k, _, _, hidx, hpay⟩ := hdec p ((first_arrivals_sublist ps).subset hp)
    rw [Function.comp_apply, hpay, hidx, Int.toNat_ofNat]
  have hperm : ((first_arrivals ps).map Packet.index).Perm [0, 1, 3, 4] := by
    rw [List.perm_ext_iff_of_nodup (first_arrivals_nodup ps) (by decide)]
    intro i
    rw [mem_first_arrivals_index]
    constructor
    · intro hi
      obtain ⟨p, hp, rfl⟩ := List.mem_map.mp hi
      obtain ⟨k, hk, hk2, hidx, _⟩ := hdec p hp
      rw [hidx]
      have : k = 0 ∨ k = 1 ∨ k = 3 ∨ k = 4 := by omega
      rcases this with h | h | h | h <;> subst h <;> decide
    · intro hi
      simp only [List.mem_cons, List.mem_singleton, List.not_mem_nil, or_false] at hi
      rcases hi with h | h | h | h
      · subst h; exact hall 0 (by decide)
      · subst h; exact hall 1 (by decide)
      · subst h; exact hall 3 (by decide)
      · subst h; exact hall 4 (by decide)
  rw [hmap, (hperm.map _).sum_eq]
  simp only [List.map_cons, List.map_nil, List.sum_cons, List.sum_nil]
  have e0 : (0 : Int).toNat = 0 := rfl
  have e1 : (1 : Int).toNat = 1 := rfl
  have e3 : (3 : Int).toNat = 3 := rfl
  have e4 : (4 : Int).toNat = 4 := rfl
  rw [e0, e1, e3, e4]
  omega

/-! ## Sender: worker queues -/

theorem full_ideal : Env.full.ideal := fun _ => ⟨Nat.le_refl _, rfl, rfl⟩

/-- The chunk record created for chunk `k` of a file. -/
theorem queue_call_snd (file : List Nat) (k : Nat) :
    (queue_call file k).2 =
      { data := some (chunk_payload file k), size := (chunk_payload file k).length,
        chunk_index := (k : Int) } := by
  simp only [queue_call, chunk_payload, List.length_take, List.length_drop]

theorem queue_call_fst (file : List Nat) (k : Nat) :
    (queue_call file k).1 = (k + 1) % NUM_WORKERS := rfl

theorem chunks_bounded {env : Env} (he : env.ideal) {file : List Nat}
    (hlen : file.length ≤ INT_LIMIT * CHUNK_SIZE) :
    (file_transfer env file).chunks =
      (List.range (num_chunks file.length)).map (fun k => (queue_call file k).2) := by
  rw [file_transfer_bounded he hlen]
  simp only [Transfer.chunks, List.map_map]
  rfl

theorem worker_queue_bounded {env : Env} (he : env.ideal) {file : List Nat}
    (hlen : file.length ≤ INT_LIMIT * CHUNK_SIZE) (w : Nat) :
    (file_transfer env file).worker_queue w =
      ((List.range (num_chunks file.length)).filter (fun k => decide ((k + 1) % NUM_WORKERS = w))).map
        (fun k => (queue_call file k).2) := by
  rw [file_transfer_bounded he hlen]
  simp only [Transfer.worker_queue, List.filter_map, List.map_map]
  have hf : ((fun q : Nat × chunk_info => q.1 == w) ∘ queue_call file) =
      fun k => decide ((k + 1) % NUM_WORKERS = w) := by
    funext k
    simp only [Function.comp, queue_call_fst]
    by_cases h : (k + 1) % NUM_WORKERS = w
    · simp [h]
    · simp [h]
  rw [hf]
  rfl

/-- The numbers below `n` that are congruent to `c` modulo 4, in increasing order, are the
arithmetic progression `c, c + 4, c + 8, ...`. -/
theorem filter_range_mod (c : Nat) (hc : c < 4) (n : Nat) :
    (List.range n).filter (fun k => decide (k % 4 = c)) =
      (List.range ((n + 3 - c) / 4)).map (fun j => 4 * j + c) := by
  induction n with
  | zero =>
    have : (0 + 3 - c) / 4 = 0 := by omega
    rw [this]; rfl
  | succ n ih =>
    rw [List.range_succ, List.filter_append, ih]
    by_cases h : n % 4 = c
    · have e : (n + 1 + 3 - c) / 4 = (n + 3 - c) / 4 + 1 := by omega
      have e2 : 4 * ((n + 3 - c) / 4) + c = n := by omega
      rw [e, List.range_succ, List.map_append]
      simp only [List.filter_cons, List.filter_nil, h, decide_True, if_true, List.map_cons,
        List.map_nil, e2]
    · have e : (n + 1 + 3 - c) / 4 = (n + 3 - c) / 4 := by omega
      rw [e]
      simp only [List.filter_cons, List.filter_nil, h, decide_False, List.append_nil]
      simp

theorem worker_filter_eq (w : Nat) (hw : w < NUM_WORKERS) (n : Nat) :
    (List.range n).filter (fun k => decide ((k + 1) % NUM_WORKERS = w)) =
      (List.range ((n + 3 - (w + 3) % 4) / 4)).map (fun j => 4 * j + (w + 3) % 4) := by
  rw [← filter_range_mod ((w + 3) % 4) (Nat.mod_lt _ (by decide)) n]
  apply List.filter_congr
  intro k _
  simp only [NUM_WORKERS] at *
  have : ((k + 1) % 4 = w) ↔ (k % 4 = (w + 3) % 4) := by omega
  simp only [this]

theorem chain_progression (c m : Nat) :
    List.Chain' (fun a b : Int => b = a + NUM_WORKERS)
      ((List.range m).map (fun j => ((4 * j + c : Nat) : Int))) := by
  rw [List.chain'_map]
  cases m with
  | zero => simp
  | succ m =>
    rw [List.chain'_range_succ]
    intro j _
    simp only [NUM_WORKERS]
    push_cast
    ring

theorem sum_filter_workers (l : List (Nat × chunk_info)) (hl : ∀ q ∈ l, q.1 < NUM_WORKERS) :
    ((List.range NUM_WORKERS).map (fun w => (l.filter (fun q => q.1 == w)).length)).sum =
      l.length := by
  have hr : List.range NUM_WORKERS = [0, 1, 2, 3] := by decide
  rw [hr]
  induction l with
  | nil => rfl
  | cons q l ih =>
    have hq : q.1 < 4 := hl q (List.mem_cons_self _ _)
    have ih2 := ih (fun r hr => hl r (List.mem_cons_of_mem _ hr))
    simp only [List.map_cons, List.map_nil, List.sum_cons, List.sum_nil, List.filter_cons,
      List.length_cons] at ih2 ⊢
    have : q.1 = 0 ∨ q.1 = 1 ∨ q.1 = 2 ∨ q.1 = 3 := by omega
    rcases this with h | h | h | h <;> simp [h] <;> omega

/-- The chunk indices on the queue of worker `w`, in queueing order. -/
theorem worker_queue_indices {env : Env} (he : env.ideal) {file : List Nat}
    (hlen : file.length ≤ INT_LIMIT * CHUNK_SIZE) {w : Nat} (hw : w < NUM_WORKERS) :
    ((file_transfer env file).worker_queue w).map chunk_info.chunk_index =
      (List.range ((num_chunks file.length + 3 - (w + 3) % 4) / 4)).map
        (fun j => ((4 * j + (w + 3) % 4 : Nat) : Int)) := by
  rw [worker_queue_bounded he hlen, worker_filter_eq w hw, List.map_map, List.map_map]
  rfl

/-! ## Sender and receiver end to end -/

theorem map_index_eq (ps : List Packet) :
    ps.map Packet.index = (ps.map Packet.datagram).map frame_index := by
  rw [List.map_map]; rfl

theorem map_payload_eq (ps : List Packet) :
    ps.map Packet.payload = (ps.map Packet.datagram).map frame_payload := by
  rw [List.map_map]; rfl

theorem map_frame_index_chunk_frames (file : List Nat) {n : Nat} (hn : n ≤ INT_LIMIT) :
    ((List.range n).map (chunk_frame file)).map frame_index =
      (List.range n).map (fun (k : Nat) => (k : Int)) := by
  rw [List.map_map]
  refine List.map_congr_left (fun k hk => ?_)
  rw [Function.comp_apply, frame_index_chunk_frame file (by have := List.mem_range.mp hk; omega)]

theorem map_frame_payload_chunk_frames (file : List Nat) (n : Nat) :
    ((List.range n).map (chunk_frame file)).map frame_payload =
      (List.range n).map (chunk_payload file) := by
  rw [List.map_map]
  refine List.map_congr_left (fun k _ => ?_)
  rw [Function.comp_apply, frame_payload_chunk_frame]

theorem flatten_chunk_payloads (file : List Nat) :
    ((List.range (num_chunks file.length)).map (chunk_payload file)).flatten = file :=
  flatten_chunks (num_chunks file.length) file
    ((num_chunks_le_iff file.length (num_chunks file.length)).mp (Nat.le_refl _))

/-- Packets that carry the datagrams of chunks `0 .. n-1` of a file, with room for every
write, are valid for the receiver as long as `n` does not exceed the dedup array. -/
theorem valid_of_chunk_frames {file : List Nat} {n : Nat} (hn : n ≤ RECEIVED_CHUNKS_LEN)
    {ps : List Packet} (hps : ps.map Packet.datagram = (List.range n).map (chunk_frame file))
    (hroom : ∀ p ∈ ps, p.payload.length ≤ p.fwrite_room) : ∀ p ∈ ps, p.valid := by
  intro p hp
  have hmem : p.datagram ∈ (List.range n).map (chunk_frame file) := by
    rw [← hps]; exact List.mem_map_of_mem _ hp
  obtain ⟨k, hk, hd⟩ := List.mem_map.mp hmem
  have hk1 : k < RECEIVED_CHUNKS_LEN := by have := List.mem_range.mp hk; omega
  have hk2 : k < INT_LIMIT := by simp only [RECEIVED_CHUNKS_LEN, INT_LIMIT] at *; omega
  have hidx : p.index = k := by rw [Packet.index, ← hd, frame_index_chunk_frame file hk2]
  refine ⟨?_, ?_, ?_, hroom p hp⟩
  · rw [← hd, chunk_frame_length, SIZEOF_INT]; omega
  · rw [hidx]; omega
  · rw [hidx]; exact_mod_cast hk1

/-- Reassembly of the datagrams of chunks `0 .. n-1` delivered once each, in order. -/
theorem reassembled_chunk_frames {file : List Nat} {n : Nat} (hn : n ≤ RECEIVED_CHUNKS_LEN)
    {ps : List Packet} (hps : ps.map Packet.datagram = (List.range n).map (chunk_frame file)) :
    (reassembled ps).outfile = ((List.range n).map (chunk_payload file)).flatten ∧
      (reassembled ps).total_bytes_received =
        ((((List.range n).map (chunk_payload file)).flatten.length : Nat) : Int) := by
  have hn2 : n ≤ INT_LIMIT := by simp only [RECEIVED_CHUNKS_LEN, INT_LIMIT] at *; omega
  have hidx : ps.map Packet.index = (List.range n).map (fun (k : Nat) => (k : Int)) := by
    rw [map_index_eq, hps, map_frame_index_chunk_frames file hn2]
  have hnd : (ps.map Packet.index).Nodup := by
    rw [hidx]
    exact List.Nodup.map (fun a b h => Int.ofNat.inj h) (List.nodup_range _)
  have hpay : ps.map Packet.payload = (List.range n).map (chunk_payload file) := by
    rw [map_payload_eq, hps, map_frame_payload_chunk_frames]
  have hfa := first_arrivals_of_nodup hnd
  have hout : (reassembled ps).outfile = (ps.map Packet.payload).flatten := by
    simp only [reassembled, hfa]
  have htot : (reassembled ps).total_bytes_received =
      (((ps.map (fun p => p.payload.length)).sum : Nat) : Int) := by
    simp only [reassembled, hfa]
  refine ⟨by rw [hout, hpay], ?_⟩
  rw [htot, ← hpay, List.length_flatten, List.map_map]
  rfl

/-- The datagram of chunk 100000 carries an index outside `received_chunks`. -/
theorem receive_step_chunk_100000 (s : Client) (buf file : List Nat) :
    receive_step s buf (some { datagram := chunk_frame file 100000, fwrite_room := CHUNK_SIZE }) =
      Outcome.fault Fault.index_out_of_bounds := by
  apply receive_step_out_of_bounds
  · show SIZEOF_INT ≤ (chunk_frame file 100000).length
    rw [chunk_frame_length, SIZEOF_INT]; omega
  · right
    show (RECEIVED_CHUNKS_LEN : Int) ≤ frame_index (chunk_frame file 100000)
    rw [frame_index_chunk_frame file (by decide)]
    decide

/-! ## Sender in an arbitrary environment -/

theorem kernel_read_length (env : Env) (file : List Nat) (offset k : Nat) :
    (kernel_read env file CHUNK_SIZE offset k).length =
      min (env.read_cap k) (min CHUNK_SIZE (file.length - offset)) := by
  simp only [kernel_read, List.length_take, List.length_drop]

theorem worker_subscript_wrapped :
    Int.tmod (toInt32 (toInt32 ((INT_LIMIT : Nat) : Int) + 1)) (NUM_WORKERS : Int) = -3 ∧
      toInt32 ((INT_LIMIT : Nat) : Int) = -2147483648 := by
  decide

theorem toInt32_succ {k : Nat} (hk : k < INT_LIMIT) :
    toInt32 (toInt32 (k : Int) + 1) = toInt32 ((k + 1 : Nat) : Int) := by
  rw [toInt32_natCast hk, Nat.cast_add, Nat.cast_one]

/-- One iteration of the read loop, by cases. -/
theorem read_loop_succ (env : Env) (file : List Nat) (fuel offset : Nat) (ci : Int) (k : Nat) :
    read_loop env file (fuel + 1) offset ci k =
      if (kernel_read env file CHUNK_SIZE offset k).length = 0 then
        { queued := [], exit := Exit.done }
      else if env.kmalloc_ok k = false then
        { queued := [], exit := Exit.enomem }
      else if Int.tmod (toInt32 (ci + 1)) NUM_WORKERS < 0 then
        { queued := []
          exit := Exit.fault
            { data := if env.kmemdup_ok k then
                some ((kernel_read env file CHUNK_SIZE offset k).take
                  (kernel_read env file CHUNK_SIZE offset k).length) else none
              size := (kernel_read env file CHUNK_SIZE offset k).length
              chunk_index := ci }
            (Int.tmod (toInt32 (ci + 1)) NUM_WORKERS) }
      else
        { queued :=
            ((Int.tmod (toInt32 (ci + 1)) NUM_WORKERS).toNat,
              { data := if env.kmemdup_ok k then
                  some ((kernel_read env file CHUNK_SIZE offset k).take
                    (kernel_read env file CHUNK_SIZE offset k).length) else none
                size := (kernel_read env file CHUNK_SIZE offset k).length
                chunk_index := ci }) ::
              (read_loop env file fuel
                (offset + (kernel_read env file CHUNK_SIZE offset k).length)
                (toInt32 (ci + 1)) (k + 1)).queued
          exit :=
            (read_loop env file fuel
              (offset + (kernel_read env file CHUNK_SIZE offset k).length)
              (toInt32 (ci + 1)) (k + 1)).exit } := by
  rw [read_loop]

theorem read_loop_shape (env : Env) (file : List Nat) :
    ∀ (fuel offset k : Nat), k ≤ INT_LIMIT →
      loop_shape file offset k (read_loop env file fuel offset (toInt32 (k : Int)) k) := by
  intro fuel
  induction fuel with
  | zero =>
    intro offset k hk
    rw [read_loop]
    refine ⟨rfl, hk, ?_, ?_, ?_⟩
    · intro c w h; cases h
    · exact Nat.le_max_left _ _
    · intro q hq; cases hq
  | succ fuel ih =>
    intro offset k hk
    rw [read_loop_succ]
    have hlen := kernel_read_length env file offset k
    by_cases h0 : (kernel_read env file CHUNK_SIZE offset k).length = 0
    · rw [if_pos h0]
      refine ⟨rfl, hk, ?_, ?_, ?_⟩
      · intro c w h; cases h
      · exact Nat.le_max_left _ _
      · intro q hq; cases hq
    · rw [if_neg h0]
      by_cases h1 : env.kmalloc_ok k = false
      · rw [if_pos h1]
        refine ⟨rfl, hk, ?_, ?_, ?_⟩
        · intro c w h; cases h
        · exact Nat.le_max_left _ _
        · intro q hq; cases hq
      · rw [if_neg h1]
        have hoff : offset < file.length := by omega
        by_cases hk2 : k = INT_LIMIT
        · have hw := worker_subscript_wrapped
          rw [← hk2] at hw
          rw [if_pos (by rw [hw.1]; decide)]
          refine ⟨rfl, hk, ?_, ?_, ?_⟩
          · intro c w h
            simp only [Transfer.mk.injEq, Exit.fault.injEq] at h
            refine ⟨hk2, ?_, ?_, hoff⟩
            · rw [← h.1]; exact hw.2
            · rw [← h.2]; exact hw.1
          · exact Nat.le_max_left _ _
          · intro q hq; cases hq
        · have hk3 : k < INT_LIMIT := by omega
          have hw := worker_subscript hk3
          have hw0 : ¬ Int.tmod (toInt32 (toInt32 (k : Int) + 1)) (NUM_WORKERS : Int) < 0 := by
            rw [hw]; omega
          rw [if_neg hw0, hw, toInt32_succ hk3, Int.toNat_ofNat]
          obtain ⟨ih1, ih2, ih3, ih4, ih5⟩ :=
            ih (offset + (kernel_read env file CHUNK_SIZE offset k).length) (k + 1) (by omega)
          refine ⟨?_, ?_, ?_, ?_, ?_⟩
          · simp only [List.map_cons, List.length_cons, List.range'_succ, ih1,
              toInt32_natCast hk3]
          · simp only [List.length_cons]; omega
          · intro c w h
            obtain ⟨a1, a2, a3, a4⟩ := ih3 c w h
            simp only [List.length_cons]
            exact ⟨by omega, a2, a3, by omega⟩
          · simp only [List.length_cons]
            have : offset + (kernel_read env file CHUNK_SIZE offset k).length ≤ file.length := by
              omega
            rw [Nat.max_eq_right this] at ih4
            rw [Nat.max_eq_right (Nat.le_of_lt hoff)]
            omega
          · intro q hq
            rcases List.mem_cons.mp hq with rfl | hq
            · refine ⟨?_, ?_, ?_⟩
              · show 1 ≤ (kernel_read env file CHUNK_SIZE offset k).length
                omega
              · show (kernel_read env file CHUNK_SIZE offset k).length ≤ CHUNK_SIZE
                omega
              intro d hd
              by_cases hm : env.kmemdup_ok k = true
              · simp only [hm, if_true, Option.some.injEq] at hd
                rw [← hd, List.take_length]
              · simp only [hm] at hd
                cases hd
            · exact ih5 q hq

/-- The read loop never runs out of fuel when given more fuel than bytes remain. -/
theorem read_loop_fuel (env : Env) (file : List Nat) :
    ∀ (fuel offset : Nat) (ci : Int) (k : Nat), file.length - offset < fuel →
      (read_loop env file fuel offset ci k).exit ≠ Exit.out_of_fuel := by
  intro fuel
  induction fuel with
  | zero => intro offset ci k h; omega
  | succ fuel ih =>
    intro offset ci k hfuel
    rw [read_loop_succ]
    have hlen := kernel_read_length env file offset k
    by_cases h0 : (kernel_read env file CHUNK_SIZE offset k).length = 0
    · rw [if_pos h0]; intro h; cases h
    · rw [if_neg h0]
      by_cases h1 : env.kmalloc_ok k = false
      · rw [if_pos h1]; intro h; cases h
      · rw [if_neg h1]
        by_cases h2 : Int.tmod (toInt32 (ci + 1)) (NUM_WORKERS : Int) < 0
        · rw [if_pos h2]; intro h; cases h
        · rw [if_neg h2]
          exact ih _ _ _ (by omega)

/-- With full-length reads the loop creates at most `ceil(remaining / CHUNK_SIZE)` chunks. -/
theorem read_loop_count (env : Env) (hfull : ∀ i, CHUNK_SIZE ≤ env.read_cap i)
    (file : List Nat) :
    ∀ (fuel offset : Nat) (ci : Int) (k : Nat),
      (read_loop env file fuel offset ci k).queued.length ≤ num_chunks (file.length - offset) := by
  intro fuel
  induction fuel with
  | zero => intro offset ci k; rw [read_loop]; exact Nat.zero_le _
  | succ fuel ih =>
    intro offset ci k
    rw [read_loop_succ]
    have hlen := kernel_read_length env file offset k
    have hcap := hfull k
    by_cases h0 : (kernel_read env file CHUNK_SIZE offset k).length = 0
    · rw [if_pos h0]; exact Nat.zero_le _
    · rw [if_neg h0]
      by_cases h1 : env.kmalloc_ok k = false
      · rw [if_pos h1]; exact Nat.zero_le _
      · rw [if_neg h1]
        by_cases h2 : Int.tmod (toInt32 (ci + 1)) (NUM_WORKERS : Int) < 0
        · rw [if_pos h2]; exact Nat.zero_le _
        · rw [if_neg h2]
          have hrec := ih (offset + (kernel_read env file CHUNK_SIZE offset k).length)
            (toInt32 (ci + 1)) (k + 1)
          simp only [List.length_cons]
          clear h2 ih
          simp only [num_chunks, CHUNK_SIZE] at *
          omega

theorem file_transfer_shape (env : Env) (file : List Nat) :
    loop_shape file 0 0 (file_transfer env file) := by
  have h := read_loop_shape env file (file.length + 1) 0 0 (Nat.zero_le _)
  have h0 : toInt32 ((0 : Nat) : Int) = 0 := by decide
  rw [h0] at h
  exact h

theorem file_transfer_terminates (env : Env) (file : List Nat) :
    (file_transfer env file).exit ≠ Exit.out_of_fuel :=
  read_loop_fuel env file (file.length + 1) 0 0 0 (by omega)

theorem file_transfer_count (env : Env) (hfull : ∀ i, CHUNK_SIZE ≤ env.read_cap i)
    (file : List Nat) : (file_transfer env file).queued.length ≤ num_chunks file.length :=
  read_loop_count env hfull file (file.length + 1) 0 0 0

/-- Every queueing call of a run: its position `j` is the chunk index and `(j + 1) mod
NUM_WORKERS` the worker subscript. -/
theorem queued_entry (env : Env) (file : List Nat) {q : Nat × chunk_info}
    (hq : q ∈ (file_transfer env file).queued) :
    ∃ j : Nat, j < (file_transfer env file).queued.length ∧ j < INT_LIMIT ∧
      q.1 = (j + 1) % NUM_WORKERS ∧ q.2.chunk_index = (j : Int) := by
  obtain ⟨h1, h2, _, _, _⟩ := file_transfer_shape env file
  have hm : (q.1, q.2.chunk_index) ∈
      (file_transfer env file).queued.map (fun q => (q.1, q.2.chunk_index)) :=
    List.mem_map_of_mem (fun q : Nat × chunk_info => (q.1, q.2.chunk_index)) hq
  rw [h1] at hm
  obtain ⟨j, hj, hje⟩ := List.mem_map.mp hm
  rw [List.mem_range'_1] at hj
  simp only [Prod.mk.injEq] at hje
  exact ⟨j, by omega, by omega, hje.1.symm, hje.2.symm⟩

theorem chunks_index_eq (env : Env) (file : List Nat) :
    (file_transfer env file).chunks.map chunk_info.chunk_index =
      (List.range (file_transfer env file).chunks.length).map (fun (j : Nat) => (j : Int)) := by
  obtain ⟨h1, _, _, _, _⟩ := file_transfer_shape env file
  have h := congrArg (List.map Prod.snd) h1
  rw [List.map_map, List.map_map] at h
  simp only [Transfer.chunks, List.map_map, List.length_map, List.range_eq_range']
  exact h

/-- With one-byte reads the loop creates one chunk per remaining byte, each with data. -/
theorem read_loop_bytewise (file : List Nat) :
    ∀ (fuel offset k : Nat), offset ≤ file.length → file.length - offset < fuel →
      k + (file.length - offset) ≤ INT_LIMIT →
      (read_loop Env.bytewise file fuel offset (toInt32 (k : Int)) k).queued.length =
          file.length - offset ∧
        ∀ q ∈ (read_loop Env.bytewise file fuel offset (toInt32 (k : Int)) k).queued,
          q.2.data ≠ none := by
  intro fuel
  induction fuel with
  | zero => intro offset k _ h; omega
  | succ fuel ih =>
    intro offset k hoff hfuel hk
    rw [read_loop_succ]
    have hlen := kernel_read_length Env.bytewise file offset k
    have hcap : Env.bytewise.read_cap k = 1 := rfl
    have hm : Env.bytewise.kmalloc_ok k = true := rfl
    have hd : Env.bytewise.kmemdup_ok k = true := rfl
    rw [hcap] at hlen
    by_cases hend : offset = file.length
    · have h0 : (kernel_read Env.bytewise file CHUNK_SIZE offset k).length = 0 := by
        rw [hlen]; omega
      rw [if_pos h0]
      refine ⟨by simp only [List.length_nil]; omega, ?_⟩
      intro q hq; cases hq
    · have h1 : (kernel_read Env.bytewise file CHUNK_SIZE offset k).length = 1 := by
        rw [hlen]; simp only [CHUNK_SIZE]; omega
      have hk3 : k < INT_LIMIT := by omega
      have hw := worker_subscript hk3
      have hw0 : ¬ Int.tmod (toInt32 (toInt32 (k : Int) + 1)) (NUM_WORKERS : Int) < 0 := by
        rw [hw]; omega
      rw [if_neg (by rw [h1]; decide), if_neg (by rw [hm]; decide), if_neg hw0,
        toInt32_succ hk3, h1]
      obtain ⟨ih1, ih2⟩ := ih (offset + 1) (k + 1) (by omega) (by omega) (by omega)
      refine ⟨by simp only [List.length_cons, ih1]; omega, ?_⟩
      intro q hq
      rcases List.mem_cons.mp hq with rfl | hq
      · simp only [hd, if_true]
        intro h; cases h
      · exact ih2 q hq

theorem file_transfer_bytewise {file : List Nat} (hlen : file.length ≤ INT_LIMIT) :
    (file_transfer Env.bytewise file).chunks.length = file.length ∧
      ∀ c ∈ (file_transfer Env.bytewise file).chunks, c.data ≠ none := by
  have h := read_loop_bytewise file (file.length + 1) 0 0 (Nat.zero_le _) (by omega) (by omega)
  have h0 : toInt32 ((0 : Nat) : Int) = 0 := by decide
  rw [h0] at h
  refine ⟨by simp only [Transfer.chunks, List.length_map]; exact h.1, ?_⟩
  intro c hc
  obtain ⟨q, hq, rfl⟩ := List.mem_map.mp hc
  exact h.2 q hq

/-- The chunk at position `j` of a run has index `j`. -/
theorem chunk_at_index (env : Env) (file : List Nat) {j : Nat} {c : chunk_info}
    (h : (file_transfer env file).chunks[j]? = some c) : c.chunk_index = (j : Int) := by
  have hj : j < (file_transfer env file).chunks.length := by
    by_contra hn
    rw [List.getElem?_eq_none (by omega)] at h
    cases h
  have h2 : ((file_transfer env file).chunks.map chunk_info.chunk_index)[j]? =
      some c.chunk_index := by
    rw [List.getElem?_map, h]; rfl
  rw [chunks_index_eq, List.getElem?_map, List.getElem?_range hj] at h2
  exact (Option.some.inj h2).symm

/-- Every chunk of a run has a position, which is its index. -/
theorem chunk_index_of_mem (env : Env) (file : List Nat) {c : chunk_info}
    (hc : c ∈ (file_transfer env file).chunks) :
    ∃ j : Nat, j < (file_transfer env file).chunks.length ∧ j < INT_LIMIT ∧
      c.chunk_index = (j : Int) := by
  obtain ⟨q, hq, rfl⟩ := List.mem_map.mp hc
  obtain ⟨j, hj, hj2, _, hidx⟩ := queued_entry env file hq
  exact ⟨j, by simp only [Transfer.chunks, List.length_map]; exact hj, hj2, hidx⟩

/-- Every datagram a run emits: four index bytes of a chunk of the run, followed by at most
`CHUNK_SIZE` bytes. -/
theorem frame_of_mem (env : Env) (file : List Nat) {d : List Nat}
    (hd : d ∈ (file_transfer env file).frames) :
    ∃ j : Nat, j < (file_transfer env file).chunks.length ∧ j < INT_LIMIT ∧
      SIZEOF_INT ≤ d.length ∧ frame_index d = (j : Int) := by
  obtain ⟨c, hc, hsend⟩ := List.mem_filterMap.mp hd
  obtain ⟨j, hj, hj2, hidx⟩ := chunk_index_of_mem env file hc
  refine ⟨j, hj, hj2, ?_, ?_⟩
  · unfold send_chunk at hsend
    cases hdata : c.data with
    | none => rw [hdata] at hsend; cases hsend
    | some x =>
      rw [hdata] at hsend
      simp only [Option.some.injEq] at hsend
      rw [← hsend, List.length_append, int_bytes_length, SIZEOF_INT]; omega
  · unfold send_chunk at hsend
    cases hdata : c.data with
    | none => rw [hdata] at hsend; cases hsend
    | some x =>
      rw [hdata] at hsend
      simp only [Option.some.injEq] at hsend
      rw [← hsend, frame_index_append, hidx, toInt32_natCast hj2]

/-- The chunk that a fault leaves unqueued is on no worker queue. -/
theorem fault_chunk_not_queued (env : Env) (file : List Nat) {c : chunk_info} {w : Int}
    (h : (file_transfer env file).exit = Exit.fault c w) :
    (file_transfer env file).chunks.length = INT_LIMIT ∧ c.chunk_index = -2147483648 ∧
      w = -3 ∧ c ∉ (file_transfer env file).chunks ∧ INT_LIMIT < file.length := by
  obtain ⟨_, _, h3, _, _⟩ := file_transfer_shape env file
  obtain ⟨a1, a2, a3, a4⟩ := h3 c w h
  refine ⟨by simp only [Transfer.chunks, List.length_map]; omega, a2, a3, ?_, by omega⟩
  intro hc
  obtain ⟨j, _, _, hidx⟩ := chunk_index_of_mem env file hc
  rw [a2] at hidx
  omega

theorem worker_queue_sublist (t : Transfer) (w : Nat) : (t.worker_queue w).Sublist t.chunks :=
  (List.filter_sublist _).map _

/-- The chunk indices on the queue of worker `w`, for any run. -/
theorem worker_queue_indices_general (env : Env) (file : List Nat) (w : Nat) :
    ((file_transfer env file).worker_queue w).map chunk_info.chunk_index =
      ((List.range (file_transfer env file).chunks.length).filter
        (fun j => decide ((j + 1) % NUM_WORKERS = w))).map (fun (j : Nat) => (j : Int)) := by
  obtain ⟨h1, _, _, _, _⟩ := file_transfer_shape env file
  have hl : ((file_transfer env file).worker_queue w).map chunk_info.chunk_index =
      (((file_transfer env file).queued.map (fun q => (q.1, q.2.chunk_index))).filter
        (fun p => p.1 == w)).map Prod.snd := by
    simp only [Transfer.worker_queue, List.filter_map, List.map_map]
    rfl
  rw [hl, h1, List.filter_map, List.map_map]
  simp only [Transfer.chunks, List.length_map, List.range_eq_range']
  have hf : ((fun p : Nat × Int => p.1 == w) ∘
      fun (j : Nat) => ((j + 1) % NUM_WORKERS, (j : Int))) =
      fun j => decide ((j + 1) % NUM_WORKERS = w) := by
    funext j
    simp only [Function.comp]
    by_cases h : (j + 1) % NUM_WORKERS = w
    · simp [h]
    · simp [h]
  rw [hf]
  rfl

/-! ## The claims -/

/-- C1 (round-trip framing).  For every chunk with an `int` index and a payload of at most
`CHUNK_SIZE` bytes, `send_chunk` builds the datagram "4 index bytes, then the payload"; the
receiver's decoding of that datagram, whatever `buf` held before, returns the same index and
the same payload, its `data_size` is the payload length, and the datagram is
`payload length + 4 <= CHUNK_SIZE + 4` bytes long. -/
theorem roundtrip_framing (index : Int) (payload buf : List Nat)
    (hlo : -2147483648 ≤ index) (hhi : index < 2147483648)
    (hlen : payload.length ≤ CHUNK_SIZE) :
    send_chunk { data := some payload, size := payload.length, chunk_index := index } =
        some (int_bytes index ++ payload) ∧
      received_chunk buf (int_bytes index ++ payload) = (index, payload) ∧
      data_size (recvfrom buf (int_bytes index ++ payload)).2 = payload.length ∧
      (int_bytes index ++ payload).length = payload.length + SIZEOF_INT ∧
      (int_bytes index ++ payload).length ≤ CHUNK_SIZE + SIZEOF_INT := by
  have hL : (int_bytes index ++ payload).length = payload.length + SIZEOF_INT := by
    rw [List.length_append, int_bytes_length, SIZEOF_INT]; omega
  have h4 : SIZEOF_INT ≤ (int_bytes index ++ payload).length := by rw [hL]; omega
  have hmin : min (int_bytes index ++ payload).length SIZEOF_CHUNK = payload.length + 4 := by
    rw [hL]; simp only [SIZEOF_CHUNK, SIZEOF_INT]; omega
  have hds : data_size (payload.length + 4) = ((payload.length : Nat) : Int) := by
    rw [data_size_of_le (by omega) (by simp only [SIZEOF_CHUNK, SIZEOF_INT]; omega)]
    simp
  refine ⟨?_, ?_, ?_, hL, by rw [hL]; omega⟩
  · simp only [send_chunk, List.take_length]
  · unfold received_chunk
    simp only [recvfrom_index h4, recvfrom_snd, hmin, hds]
    rw [toSizeT_natCast (by simp only [CHUNK_SIZE] at hlen; omega)]
    have hd := recvfrom_data buf h4
    rw [hmin, Nat.add_sub_cancel] at hd
    rw [hd, frame_index_append, frame_payload_append _ hlen, toInt32_of_range hlo hhi]
  · rw [recvfrom_snd, hmin, hds]

/-- Witness of `roundtrip_framing`: chunk 3 with the two payload bytes 10, 20. -/
theorem roundtrip_framing_witness :
    send_chunk { data := some [10, 20], size := 2, chunk_index := 3 } = some [3, 0, 0, 0, 10, 20] ∧
      received_chunk [9, 9, 9, 9, 9, 9, 9] [3, 0, 0, 0, 10, 20] = (3, [10, 20]) :=
  let h := roundtrip_framing 3 [10, 20] [9, 9, 9, 9, 9, 9, 9] (by decide) (by decide) (by decide)
  ⟨h.1, h.2.1⟩

/-- C2, counterexample.  (1) From the initial state, the datagram `[0, 0, 0, 0, 7, 8]`
(chunk 0 with the payload `[7, 8]`) on which `fwrite` accepts one byte only, delivered
twice: the two deliveries leave the state of one delivery, but the thread has left its loop
with index 0 marked, the output holding `[7]` and `total_bytes_received` still 0; the
payload was not written and the counter did not grow by its length 2.  (2) In the state
reached once chunk 0 with the payload `[7]` has been accepted (index 0 marked, output `[7]`,
counter 1), a datagram with index 0 and the payload `[9]` delivered twice changes nothing:
that payload is written zero times and the counter does not grow. -/
theorem duplicate_delivery_not_exactly_once :
    (∃ s1,
      receive_chunks Client.init []
          [some { datagram := [0, 0, 0, 0, 7, 8], fwrite_room := 1 },
            some { datagram := [0, 0, 0, 0, 7, 8], fwrite_room := 1 }] = Outcome.stopped s1 ∧
      receive_chunks Client.init []
          [some { datagram := [0, 0, 0, 0, 7, 8], fwrite_room := 1 }] = Outcome.stopped s1 ∧
      received_chunk [] [0, 0, 0, 0, 7, 8] = (0, [7, 8]) ∧
      s1.received_chunks 0 = 1 ∧ s1.outfile = [7] ∧ s1.total_bytes_received = 0) ∧
    (∃ s0 b0 b1,
      receive_chunks Client.init []
          [some { datagram := [0, 0, 0, 0, 7], fwrite_room := 1 }] = Outcome.running s0 b0 ∧
      s0.received_chunks 0 = 1 ∧ s0.outfile = [7] ∧ s0.total_bytes_received = 1 ∧
      received_chunk b0 [0, 0, 0, 0, 9] = (0, [9]) ∧
      receive_chunks s0 b0
          [some { datagram := [0, 0, 0, 0, 9], fwrite_room := 1 },
            some { datagram := [0, 0, 0, 0, 9], fwrite_room := 1 }] = Outcome.running s0 b1) := by
  have ha := @receive_chunks_singleton_in_bounds Client.init []
    { datagram := [0, 0, 0, 0, 7, 8], fwrite_room := 1 } (by decide) (by decide) (by decide)
  rw [if_pos (by decide), if_neg (by decide)] at ha
  have hb := @receive_chunks_singleton_in_bounds Client.init []
    { datagram := [0, 0, 0, 0, 7], fwrite_room := 1 } (by decide) (by decide) (by decide)
  rw [if_pos (by decide), if_pos (by decide)] at hb
  have hc := @receive_chunks_singleton_in_bounds
    (Client.init.accept { datagram := [0, 0, 0, 0, 7], fwrite_room := 1 })
    (recvfrom [] [0, 0, 0, 0, 7]).1
    { datagram := [0, 0, 0, 0, 9], fwrite_room := 1 } (by decide) (by decide) (by decide)
  rw [if_neg (by decide)] at hc
  refine ⟨⟨_, ?_, ha, by decide, by decide, by decide, by decide⟩,
    ⟨_, _, (recvfrom (recvfrom [] [0, 0, 0, 0, 7]).1 [0, 0, 0, 0, 9]).1, hb, by decide,
      by decide, by decide, by decide, ?_⟩⟩
  · rw [receive_chunks_twice, ha]
  · rw [receive_chunks_twice]
    exact hc

/-- C2, amended.  For every state of the receiver's globals, every `buf` and every datagram
of at least 4 bytes whose index is a subscript of `received_chunks`: handling the datagram
twice leaves the state of handling it once.  When the index was not yet marked and `fwrite`
accepts the whole payload, the result of the two deliveries is the state with the index
marked, the payload appended once to the output and `total_bytes_received` advanced once by
the payload length (exactly that sum whenever it is representable in `int`); when the index
was not yet marked and `fwrite` accepts less, the thread has stopped after that one partial
write, with the counter unchanged; when the index was already marked nothing changes.  More
generally, for every sequence of `recvfrom` results handled from the initial state, in every
state reached no chunk index was passed to `fwrite` more than once, and the output file is
the concatenation of those writes. -/
theorem idempotent_reassembly (s : Client) (buf : List Nat) (p : Packet)
    (h4 : SIZEOF_INT ≤ p.datagram.length) (h0 : 0 ≤ p.index)
    (hN : p.index < RECEIVED_CHUNKS_LEN) :
    receive_chunks s buf [some p, some p] = receive_chunks s buf [some p] ∧
    (s.received_chunks p.index.toNat = 0 → p.payload.length ≤ p.fwrite_room →
      receive_chunks s buf [some p, some p] =
        Outcome.running
          { received_chunks := Function.update s.received_chunks p.index.toNat 1
            outfile := s.outfile ++ p.payload
            total_bytes_received := toInt32 (s.total_bytes_received + p.payload.length)
            fwrite_log := s.fwrite_log ++ [(p.index, p.payload)] }
          (recvfrom buf p.datagram).1 ∧
      (-2147483648 ≤ s.total_bytes_received →
        s.total_bytes_received + p.payload.length < 2147483648 →
        toInt32 (s.total_bytes_received + p.payload.length) =
          s.total_bytes_received + p.payload.length)) ∧
    (s.received_chunks p.index.toNat = 0 → p.fwrite_room < p.payload.length →
      receive_chunks s buf [some p, some p] =
        Outcome.stopped
          { received_chunks := Function.update s.received_chunks p.index.toNat 1
            outfile := s.outfile ++ p.payload.take p.fwrite_room
            total_bytes_received := s.total_bytes_received
            fwrite_log := s.fwrite_log ++ [(p.index, p.payload.take p.fwrite_room)] }) ∧
    (s.received_chunks p.index.toNat ≠ 0 →
      receive_chunks s buf [some p, some p] = Outcome.running s (recvfrom buf p.datagram).1) ∧
    (∀ (es : List (Option Packet)) (buf0 : List Nat) (s1 : Client),
      ((∃ buf1, receive_chunks Client.init buf0 es = Outcome.running s1 buf1) ∨
        receive_chunks Client.init buf0 es = Outcome.stopped s1) →
      (s1.fwrite_log.map Prod.fst).Nodup ∧ s1.outfile = (s1.fwrite_log.map Prod.snd).flatten) := by
  have h1 := receive_chunks_singleton_in_bounds s buf h4 h0 hN
  refine ⟨receive_chunks_twice s buf (some p), ?_, ?_, ?_, ?_⟩
  · intro hfresh hroom
    refine ⟨?_, ?_⟩
    · rw [receive_chunks_twice, h1, if_pos hfresh, if_pos hroom]
      rfl
    · intro hlo hhi
      exact toInt32_of_range (by omega) hhi
  · intro hfresh hroom
    rw [receive_chunks_twice, h1, if_pos hfresh, if_neg (Nat.not_le.mpr hroom)]
    rfl
  · intro hseen
    rw [receive_chunks_twice, h1, if_neg hseen]
  · intro es buf0 s1 h
    have hc := log_consistent_run es Client.init buf0 log_consistent_init s1 h
    exact ⟨hc.1, hc.2.2⟩

/-- Witness of `idempotent_reassembly`: chunk 0 with the one payload byte 7 delivered twice
to the initial state, `fwrite` accepting the byte; the output is `[7]` and the counter 1. -/
theorem idempotent_reassembly_witness :
    SIZEOF_INT ≤ [0, 0, 0, 0, 7].length ∧
      receive_chunks Client.init [] [some { datagram := [0, 0, 0, 0, 7], fwrite_room := 1 },
          some { datagram := [0, 0, 0, 0, 7], fwrite_room := 1 }] =
        receive_chunks Client.init [] [some { datagram := [0, 0, 0, 0, 7], fwrite_room := 1 }] ∧
      ∃ s1 b1,
        receive_chunks Client.init [] [some { datagram := [0, 0, 0, 0, 7], fwrite_room := 1 },
            some { datagram := [0, 0, 0, 0, 7], fwrite_room := 1 }] = Outcome.running s1 b1 ∧
        s1.received_chunks 0 = 1 ∧ s1.outfile = [7] ∧ s1.total_bytes_received = 1 := by
  have h := idempotent_reassembly Client.init [] { datagram := [0, 0, 0, 0, 7], fwrite_room := 1 }
    (by decide) (by decide) (by decide)
  exact ⟨by decide, h.1, _, _, (h.2.1 (by decide) (by decide)).1, by decide, by decide,
    by decide⟩

/-- C3, counterexample.  Two chunks with the distinct indices 0 and 1 and the one-byte
payloads 1 and 2: arriving as 0, 1 the output file is `[1, 2]`, arriving as 1, 0 it is
`[2, 1]`; the payload of chunk 1 lands at offset 0, not at `1 * CHUNK_SIZE`. -/
theorem arrival_order_changes_output :
    ∃ s1 b1 s2 b2,
      receive_chunks Client.init []
          [some { datagram := [0, 0, 0, 0, 1], fwrite_room := 1 },
            some { datagram := [1, 0, 0, 0, 2], fwrite_room := 1 }] = Outcome.running s1 b1 ∧
      receive_chunks Client.init []
          [some { datagram := [1, 0, 0, 0, 2], fwrite_room := 1 },
            some { datagram := [0, 0, 0, 0, 1], fwrite_room := 1 }] = Outcome.running s2 b2 ∧
      s1.outfile = [1, 2] ∧ s2.outfile = [2, 1] ∧ s1.outfile ≠ s2.outfile := by
  obtain ⟨b1, h1⟩ := receive_chunks_valid []
    [{ datagram := [0, 0, 0, 0, 1], fwrite_room := 1 },
      { datagram := [1, 0, 0, 0, 2], fwrite_room := 1 }] (by decide)
  obtain ⟨b2, h2⟩ := receive_chunks_valid []
    [{ datagram := [1, 0, 0, 0, 2], fwrite_room := 1 },
      { datagram := [0, 0, 0, 0, 1], fwrite_room := 1 }] (by decide)
  exact ⟨_, b1, _, b2, h1, h2, by decide, by decide, by decide⟩

/-- C3, amended.  For chunks with distinct indices inside `received_chunks` (datagrams of
at least 4 bytes, every write accepted in full) and any permutation of their arrival order:
both runs keep the thread in its loop, mark the same indices, and end with the same
`total_bytes_received` and the same output length; each output file is the concatenation of
the payloads in its own arrival order, so the two files hold the same bytes up to
rearrangement. -/
theorem arrival_order_reassembly (buf : List Nat) (ps qs : List Packet) (hperm : ps.Perm qs)
    (hv : ∀ p ∈ ps, p.valid) (hnd : (ps.map Packet.index).Nodup) :
    ∃ s1 b1 s2 b2,
      receive_chunks Client.init buf (ps.map some) = Outcome.running s1 b1 ∧
      receive_chunks Client.init buf (qs.map some) = Outcome.running s2 b2 ∧
      s1.outfile = (ps.map Packet.payload).flatten ∧
      s2.outfile = (qs.map Packet.payload).flatten ∧
      s1.received_chunks = s2.received_chunks ∧
      s1.total_bytes_received = s2.total_bytes_received ∧
      s1.outfile.length = s2.outfile.length ∧
      s1.outfile.Perm s2.outfile := by
  have hvq : ∀ p ∈ qs, p.valid := fun p hp => hv p (hperm.mem_iff.mpr hp)
  have hndq : (qs.map Packet.index).Nodup := (hperm.map _).nodup_iff.mp hnd
  obtain ⟨b1, h1⟩ := receive_chunks_valid buf ps hv
  obtain ⟨b2, h2⟩ := receive_chunks_valid buf qs hvq
  have hout (l : List Packet) (h : (l.map Packet.index).Nodup) :
      (reassembled l).outfile = (l.map Packet.payload).flatten := by
    simp only [reassembled, first_arrivals_of_nodup h]
  have hpf : ((ps.map Packet.payload).flatten).Perm ((qs.map Packet.payload).flatten) :=
    (hperm.map _).flatten
  refine ⟨_, b1, _, b2, h1, h2, hout ps hnd, hout qs hndq, ?_, ?_, ?_, ?_⟩
  · funext i
    simp only [reassembled]
    have : ((i : Int) ∈ ps.map Packet.index) ↔ ((i : Int) ∈ qs.map Packet.index) :=
      (hperm.map _).mem_iff
    simp only [this]
  · simp only [reassembled, first_arrivals_of_nodup hnd, first_arrivals_of_nodup hndq]
    rw [(hperm.map _).sum_eq]
  · rw [hout ps hnd, hout qs hndq]; exact hpf.length_eq
  · rw [hout ps hnd, hout qs hndq]; exact hpf

/-- Witness of `arrival_order_reassembly`: chunks 0 and 1 arriving as 0, 1 and as 1, 0. -/
theorem arrival_order_reassembly_witness :
    ∃ s1 b1 s2 b2,
      receive_chunks Client.init []
          ([{ datagram := [0, 0, 0, 0, 1], fwrite_room := 1 },
            { datagram := [1, 0, 0, 0, 2], fwrite_room := 1 }].map some) = Outcome.running s1 b1 ∧
      receive_chunks Client.init []
          ([{ datagram := [1, 0, 0, 0, 2], fwrite_room := 1 },
            { datagram := [0, 0, 0, 0, 1], fwrite_room := 1 }].map some) = Outcome.running s2 b2 ∧
      s1.received_chunks = s2.received_chunks ∧
      s1.total_bytes_received = s2.total_bytes_received := by
  obtain ⟨s1, b1, s2, b2, h1, h2, _, _, h5, h6, _, _⟩ :=
    arrival_order_reassembly []
      [{ datagram := [0, 0, 0, 0, 1], fwrite_room := 1 },
        { datagram := [1, 0, 0, 0, 2], fwrite_room := 1 }]
      [{ datagram := [1, 0, 0, 0, 2], fwrite_room := 1 },
        { datagram := [0, 0, 0, 0, 1], fwrite_room := 1 }]
      (List.Perm.swap _ _ []) (by decide) (by decide)
  exact ⟨s1, b1, s2, b2, h1, h2, h5, h6⟩

/-- C4 (round-robin assignment), evaluation of the code.  The subscript of `workers` is
taken after `chunk_index++`: chunk `i` goes to `workers[(i + 1) mod NUM_WORKERS]`.  A file
of one byte queues chunk 0 on worker 1; for a file of ten full chunks the chunks 0..9 go to
the workers 1, 2, 3, 0, 1, 2, 3, 0, 1, 2, and the queue of worker 0 holds the chunks 3 and
7, not 0, 4, 8. -/
theorem round_robin_off_by_one :
    (file_transfer Env.full [0]).queued.map (fun q => (q.2.chunk_index, q.1)) = [(0, 1)] ∧
      (file_transfer Env.full (List.replicate 81920 0)).queued.map
          (fun q => (q.2.chunk_index, q.1)) =
        [(0, 1), (1, 2), (2, 3), (3, 0), (4, 1), (5, 2), (6, 3), (7, 0), (8, 1), (9, 2)] ∧
      ((file_transfer Env.full (List.replicate 81920 0)).worker_queue 0).map
          chunk_info.chunk_index = [3, 7] := by
  have hlen : (List.replicate 81920 0).length ≤ INT_LIMIT * CHUNK_SIZE := by
    rw [List.length_replicate]; decide
  have hn : num_chunks (List.replicate 81920 0).length = 10 := by
    rw [List.length_replicate]; decide
  refine ⟨by decide, ?_, ?_⟩
  · rw [file_transfer_bounded full_ideal hlen, hn, List.map_map]
    have hf : ((fun q : Nat × chunk_info => (q.2.chunk_index, q.1)) ∘
        queue_call (List.replicate 81920 0)) =
        fun (k : Nat) => ((k : Int), (k + 1) % NUM_WORKERS) := rfl
    rw [hf]
    decide
  · have h := worker_queue_indices full_ideal hlen (w := 0) (by decide)
    rw [h, hn]
    decide

/-- C5, counterexample.  (1) A source file of `100000 * CHUNK_SIZE + 1` bytes, read in full
and delivered losslessly, once each and in creation order: the last datagram carries index
100000 and the receiver's `received_chunks[100000]` is outside the array, so the run ends
in undefined behaviour instead of a copy of the source.  (2) When `kmalloc` fails the
sender emits no datagram for the one-byte file 7 and the receiver's output stays empty.
(3) When `fwrite` accepts nothing, the datagram of the one-byte file 7 leaves the output
empty, the counter at 0 and the thread stopped. -/
theorem end_to_end_out_of_bounds :
    receive_chunks Client.init []
        (deliver (file_transfer Env.full (List.replicate 819200001 0)).frames) =
      Outcome.fault Fault.index_out_of_bounds ∧
    receive_chunks Client.init [] (deliver (file_transfer Env.no_memory [7]).frames) =
      Outcome.running Client.init [] ∧
    ((file_transfer Env.full [7]).frames = [[0, 0, 0, 0, 7]] ∧
      ∃ s, receive_chunks Client.init [] [some { datagram := [0, 0, 0, 0, 7], fwrite_room := 0 }] =
          Outcome.stopped s ∧ s.outfile = [] ∧ s.total_bytes_received = 0) := by
  refine ⟨?_, ?_, by decide, ?_⟩
  · have hlen : (List.replicate 819200001 0).length ≤ INT_LIMIT * CHUNK_SIZE := by
      rw [List.length_replicate]; decide
    have hn : num_chunks (List.replicate 819200001 0).length = 100000 + 1 := by
      rw [List.length_replicate]; decide
    rw [frames_eq_chunk_frames full_ideal hlen, hn, List.range_succ, List.map_append]
    simp only [deliver, List.map_append, List.map_cons, List.map_nil]
    have hmap : List.map (fun d => some ({ datagram := d, fwrite_room := CHUNK_SIZE } : Packet))
        (List.map (chunk_frame (List.replicate 819200001 0)) (List.range 100000)) =
        (List.map (fun d => ({ datagram := d, fwrite_room := CHUNK_SIZE } : Packet))
          (List.map (chunk_frame (List.replicate 819200001 0)) (List.range 100000))).map some := by
      rw [List.map_map, List.map_map, List.map_map]
      rfl
    rw [hmap, receive_chunks_append]
    have hv := @valid_of_chunk_frames (List.replicate 819200001 0) 100000 (by decide)
      (List.map (fun d => ({ datagram := d, fwrite_room := CHUNK_SIZE } : Packet))
        (List.map (chunk_frame (List.replicate 819200001 0)) (List.range 100000)))
      (by rw [List.map_map, List.map_map]; rfl)
      (by
        intro p hp
        obtain ⟨d, _, rfl⟩ := List.mem_map.mp hp
        exact frame_payload_length_le d)
    obtain ⟨buf1, hrun⟩ := receive_chunks_valid [] _ hv
    rw [hrun]
    exact receive_chunks_cons_fault (receive_step_chunk_100000 _ _ _) []
  · have hf : (file_transfer Env.no_memory [7]).frames = [] := by decide
    rw [hf]
    rfl
  · have h := receive_chunks_singleton_in_bounds Client.init []
      (p := { datagram := [0, 0, 0, 0, 7], fwrite_room := 0 }) (by decide) (by decide) (by decide)
    rw [if_pos (by rfl), if_neg (by decide)] at h
    exact ⟨_, h, rfl, rfl⟩

/-- C5, amended.  For every source file of at most `100000 * CHUNK_SIZE` bytes, read with
full-length reads and successful allocations: when every datagram the sender emits is
delivered to the receiver exactly once and handled in the order the chunks were created,
and every `fwrite` accepts the whole payload, the receiving thread stays in its loop, the
bytes written to the output equal the source file and `total_bytes_received` equals its
length.  A source of 20000 bytes gives exactly 3 chunks of 8192, 8192 and 3616 bytes and a
counter of 20000. -/
theorem end_to_end_identity (env : Env) (file buf : List Nat) (ps : List Packet)
    (he : env.ideal) (hlen : file.length ≤ RECEIVED_CHUNKS_LEN * CHUNK_SIZE)
    (hps : ps.map Packet.datagram = (file_transfer env file).frames)
    (hroom : ∀ p ∈ ps, p.payload.length ≤ p.fwrite_room) :
    ∃ s buf1, receive_chunks Client.init buf (ps.map some) = Outcome.running s buf1 ∧
      s.outfile = file ∧
      s.total_bytes_received = file.length ∧
      (file.length = 20000 →
        (file_transfer env file).chunks.map chunk_info.size = [8192, 8192, 3616] ∧
          s.total_bytes_received = 20000) := by
  have hlen2 := received_len_le_int_limit hlen
  have hn : num_chunks file.length ≤ RECEIVED_CHUNKS_LEN := (num_chunks_le_iff _ _).mpr hlen
  rw [frames_eq_chunk_frames he hlen2] at hps
  have hv := valid_of_chunk_frames hn hps hroom
  obtain ⟨buf1, hrun⟩ := receive_chunks_valid buf ps hv
  obtain ⟨hout, htot⟩ := reassembled_chunk_frames hn hps
  rw [flatten_chunk_payloads] at hout htot
  refine ⟨reassembled ps, buf1, hrun, hout, htot, ?_⟩
  intro h20
  refine ⟨?_, by rw [htot, h20]; rfl⟩
  rw [chunks_bounded he hlen2, List.map_map]
  have hf : (chunk_info.size ∘ fun k => (queue_call file k).2) =
      fun k => min CHUNK_SIZE (file.length - k * CHUNK_SIZE) := rfl
  rw [hf, h20]
  decide

/-- Witness of `end_to_end_identity`: the three-byte file 1, 2, 3 sent as one datagram. -/
theorem end_to_end_identity_witness :
    ∃ s buf1,
      receive_chunks Client.init []
          ([{ datagram := [0, 0, 0, 0, 1, 2, 3], fwrite_room := 3 }].map some) =
        Outcome.running s buf1 ∧
      s.outfile = [1, 2, 3] ∧ s.total_bytes_received = 3 := by
  obtain ⟨s, b, h1, h2, h3, _⟩ :=
    end_to_end_identity Env.full [1, 2, 3] []
      [{ datagram := [0, 0, 0, 0, 1, 2, 3], fwrite_room := 3 }] full_ideal (by decide)
      (by decide) (by decide)
  exact ⟨s, b, h1, h2, h3⟩

/-- C6 (byte counter).  After a receiving thread has handled, from the initial state, any
sequence of datagrams that are at least 4 bytes long, carry an index inside
`received_chunks` and are written in full: the thread is still in its loop; an index is
marked exactly when some datagram carried it; and `total_bytes_received` is the sum of the
payload lengths of the first arrivals, a sub-sequence of the arrivals holding exactly one
packet for every marked index (no `int` overflow occurs: the sum is at most 819200000).
In particular, when the datagrams are those of a five-chunk file without chunk 2 and chunks
0, 1, 3, 4 all arrive, the counter is the sum of the sizes of those four chunks, which is
`CHUNK_SIZE` less than the file size. -/
theorem byte_counter_invariant (buf : List Nat) (ps : List Packet) (hv : ∀ p ∈ ps, p.valid) :
    ∃ s buf1, receive_chunks Client.init buf (ps.map some) = Outcome.running s buf1 ∧
      (∀ i : Nat, s.received_chunks i = if (i : Int) ∈ ps.map Packet.index then 1 else 0) ∧
      (first_arrivals ps).Sublist ps ∧
      ((first_arrivals ps).map Packet.index).Nodup ∧
      (∀ i : Int, i ∈ (first_arrivals ps).map Packet.index ↔ i ∈ ps.map Packet.index) ∧
      s.total_bytes_received = (((first_arrivals ps).map (fun p => p.payload.length)).sum : Nat) ∧
      s.total_bytes_received ≤ 819200000 ∧
      (∀ (env : Env) (file : List Nat), env.ideal → num_chunks file.length = 5 →
        (∀ p ∈ ps, p.datagram ∈ (file_transfer env file).frames ∧ p.index ≠ 2) →
        (∀ k ∈ [0, 1, 3, 4], (k : Int) ∈ ps.map Packet.index) →
        s.total_bytes_received =
          (((chunk_payload file 0).length + (chunk_payload file 1).length +
            (chunk_payload file 3).length + (chunk_payload file 4).length : Nat) : Int) ∧
        s.total_bytes_received + CHUNK_SIZE = file.length) := by
  obtain ⟨buf1, hrun⟩ := receive_chunks_valid buf ps hv
  have hsum := sum_first_arrivals_lt hv
  have htot : (reassembled ps).total_bytes_received =
      (((first_arrivals ps).map (fun p => p.payload.length)).sum : Nat) := rfl
  refine ⟨reassembled ps, buf1, hrun, fun i => rfl, first_arrivals_sublist ps,
    first_arrivals_nodup ps, mem_first_arrivals_index ps, htot, ?_, ?_⟩
  · rw [htot]
    have h := Int.ofNat_le.mpr hsum
    exact h
  · intro env file he h5 hps hall
    have hgap := sum_first_arrivals_gap he h5 hps hall
    rw [htot, hgap]
    refine ⟨rfl, ?_⟩
    have h4 : 4 * CHUNK_SIZE < file.length := (lt_num_chunks_iff file.length 4).mp (by omega)
    have h5' : file.length ≤ 5 * CHUNK_SIZE := (num_chunks_le_iff file.length 5).mp (by omega)
    have hsz : (chunk_payload file 0).length + (chunk_payload file 1).length +
        (chunk_payload file 3).length + (chunk_payload file 4).length + CHUNK_SIZE =
        file.length := by
      simp only [chunk_payload_length]
      clear hgap hsum hrun hps hall htot
      simp only [CHUNK_SIZE] at *
      omega
    exact_mod_cast hsz

/-- Witness of `byte_counter_invariant`: chunk 0 (payload 1), chunk 1 (payload 2) and
chunk 0 once more; the counter ends at 2. -/
theorem byte_counter_invariant_witness :
    ∃ s buf1,
      receive_chunks Client.init []
          ([{ datagram := [0, 0, 0, 0, 1], fwrite_room := 1 },
            { datagram := [1, 0, 0, 0, 2], fwrite_room := 1 },
            { datagram := [0, 0, 0, 0, 1], fwrite_room := 1 }].map some) =
        Outcome.running s buf1 ∧
      s.total_bytes_received = 2 := by
  obtain ⟨s, b, h, _, _, _, _, ht, _, _⟩ :=
    byte_counter_invariant []
      [{ datagram := [0, 0, 0, 0, 1], fwrite_room := 1 },
        { datagram := [1, 0, 0, 0, 2], fwrite_room := 1 },
        { datagram := [0, 0, 0, 0, 1], fwrite_room := 1 }] (by decide)
  exact ⟨s, b, h, by rw [ht]; decide⟩

/-- C7 (short frames), evaluation of the code.  After a frame for chunk 5, a datagram of
the three bytes 6, 0, 0 is not rejected: the receiver reads index 6 from the three new bytes
and the stale fourth byte, finds it unmarked, computes `data_size = -1` and calls `fwrite`
with the count `(size_t)-1`, a read past the end of `buf.data`. -/
theorem short_frame_not_rejected (buf : List Nat) :
    data_size 3 = -1 ∧ toSizeT (data_size 3) = 18446744073709551615 ∧
    receive_chunks Client.init buf
        [some { datagram := [5, 0, 0, 0, 9], fwrite_room := 1 },
          some { datagram := [6, 0, 0], fwrite_room := 1 }] =
      Outcome.fault Fault.read_past_buffer := by
  have hv : Packet.valid { datagram := [5, 0, 0, 0, 9], fwrite_room := 1 } := by decide
  have h1 := receive_chunks_singleton_valid Client.init buf hv
  rw [if_pos (by rfl)] at h1
  have hbuf : (recvfrom (recvfrom buf [5, 0, 0, 0, 9]).1 [6, 0, 0]).1 =
      [6, 0, 0, 0, 9] ++ buf.drop 5 := by
    simp [recvfrom, SIZEOF_CHUNK, SIZEOF_INT, CHUNK_SIZE]
  have hidx : buf_index ([6, 0, 0, 0, 9] ++ buf.drop 5) = 6 := by
    simp only [buf_index, SIZEOF_INT, List.cons_append, List.take_succ_cons, List.take_zero]
    decide
  have hstep := receive_step_short
    (Client.init.accept { datagram := [5, 0, 0, 0, 9], fwrite_room := 1 })
    (recvfrom buf [5, 0, 0, 0, 9]).1 { datagram := [6, 0, 0], fwrite_room := 1 } (by decide)
    (by rw [hbuf, hidx]; decide) (by rw [hbuf, hidx]; decide)
    (by
      rw [hbuf, hidx]
      show Function.update Client.init.received_chunks
        (Packet.index { datagram := [5, 0, 0, 0, 9], fwrite_room := 1 }).toNat 1 (6 : Int).toNat = 0
      have h5 : (Packet.index { datagram := [5, 0, 0, 0, 9], fwrite_room := 1 }).toNat = 5 := by
        decide
      have h6 : (6 : Int).toNat = 6 := by decide
      rw [h5, h6, Function.update_noteq (by decide)]
      rfl)
  refine ⟨by decide, by decide, ?_⟩
  have happ := receive_chunks_append Client.init buf
    [some { datagram := [5, 0, 0, 0, 9], fwrite_room := 1 }]
    [some { datagram := [6, 0, 0], fwrite_room := 1 }]
  rw [h1] at happ
  simp only [List.singleton_append] at happ
  rw [happ]
  exact receive_chunks_cons_fault hstep []

/-- C8, counterexample.  (1) A source file of `2^31 * CHUNK_SIZE + 1` bytes read in full
has `2^31 + 1` chunks, but the read loop queues only `2^31` of them: chunk number `2^31`
is created with the wrapped index `-2^31`, the subscript `chunk_index % NUM_WORKERS` is
`-3` and the loop leaves defined behaviour.  (2) When `kmalloc` fails the loop returns
`-ENOMEM` and a one-byte file yields no chunk.  (3) When `kmemdup` fails the chunk of a
one-byte file holds a null pointer instead of the byte. -/
theorem chunking_int_overflow :
    (num_chunks (List.replicate 17592186044417 0).length = 2147483649 ∧
      (file_transfer Env.full (List.replicate 17592186044417 0)).chunks.length = 2147483648 ∧
      (file_transfer Env.full (List.replicate 17592186044417 0)).exit =
        Exit.fault (wrapped_chunk (List.replicate 17592186044417 0)) (-3) ∧
      (wrapped_chunk (List.replicate 17592186044417 0)).chunk_index = -2147483648) ∧
    (num_chunks [7].length = 1 ∧ (file_transfer Env.no_memory [7]).chunks = [] ∧
      (file_transfer Env.no_memory [7]).exit = Exit.enomem) ∧
    (file_transfer
        { read_cap := fun _ => CHUNK_SIZE, kmalloc_ok := fun _ => true,
          kmemdup_ok := fun _ => false } [7]).chunks =
      [{ data := none, size := 1, chunk_index := 0 }] := by
  have hn : num_chunks (List.replicate 17592186044417 0).length = 2147483649 := by
    rw [List.length_replicate]; decide
  have hmin : min 2147483649 INT_LIMIT = 2147483648 := by decide
  have hnot : ¬ 2147483649 ≤ INT_LIMIT := by decide
  refine ⟨⟨hn, ?_, ?_, rfl⟩, ⟨by decide, by decide, by decide⟩, by decide⟩
  · rw [file_transfer_ideal full_ideal, hn, hmin]
    simp only [Transfer.chunks, List.length_map, List.length_range]
  · rw [file_transfer_ideal full_ideal, hn, if_neg hnot]

/-- C8, amended.  For every source file of at most `2^31 * CHUNK_SIZE` bytes, read with
full-length reads and successful allocations, the read loop ends normally having created
exactly `ceil(length / CHUNK_SIZE)` chunks (the least `n` with `length <= n *
CHUNK_SIZE`); their indices are 0, 1, 2, ... in file order without repetition; chunk `k`
holds the bytes of the file from offset `k * CHUNK_SIZE`, its size is the number of those
bytes, between 1 and `CHUNK_SIZE`, and exactly `CHUNK_SIZE` when the chunk is not the last;
an empty file creates no chunk. -/
theorem chunking_of_source_file (env : Env) (file : List Nat) (he : env.ideal)
    (hlen : file.length ≤ INT_LIMIT * CHUNK_SIZE) :
    (file_transfer env file).exit = Exit.done ∧
      (file_transfer env file).chunks.length = num_chunks file.length ∧
      (∀ n, num_chunks file.length ≤ n ↔ file.length ≤ n * CHUNK_SIZE) ∧
      (file_transfer env file).chunks.map chunk_info.chunk_index =
        (List.range (num_chunks file.length)).map (fun (k : Nat) => (k : Int)) ∧
      ((file_transfer env file).chunks.map chunk_info.chunk_index).Nodup ∧
      (∀ k, k < num_chunks file.length →
        (file_transfer env file).chunks[k]? =
            some { data := some ((file.drop (k * CHUNK_SIZE)).take CHUNK_SIZE)
                   size := ((file.drop (k * CHUNK_SIZE)).take CHUNK_SIZE).length
                   chunk_index := (k : Int) } ∧
          1 ≤ ((file.drop (k * CHUNK_SIZE)).take CHUNK_SIZE).length ∧
          ((file.drop (k * CHUNK_SIZE)).take CHUNK_SIZE).length ≤ CHUNK_SIZE ∧
          (k + 1 < num_chunks file.length →
            ((file.drop (k * CHUNK_SIZE)).take CHUNK_SIZE).length = CHUNK_SIZE)) ∧
      (file.length = 0 → (file_transfer env file).chunks = []) := by
  have hchunks := chunks_bounded he hlen
  have hidx : (file_transfer env file).chunks.map chunk_info.chunk_index =
      (List.range (num_chunks file.length)).map (fun (k : Nat) => (k : Int)) := by
    rw [hchunks, List.map_map]
    rfl
  refine ⟨?_, ?_, num_chunks_le_iff file.length, hidx, ?_, ?_, ?_⟩
  · rw [file_transfer_bounded he hlen]
  · rw [hchunks, List.length_map, List.length_range]
  · rw [hidx]
    exact List.Nodup.map (fun a b h => Int.ofNat.inj h) (List.nodup_range _)
  · intro k hk
    have hk2 : k * CHUNK_SIZE < file.length := (lt_num_chunks_iff _ _).mp hk
    refine ⟨?_, ?_, ?_, ?_⟩
    · rw [hchunks, List.getElem?_map, List.getElem?_range hk, Option.map_some', queue_call_snd]
      rfl
    · simp only [List.length_take, List.length_drop, CHUNK_SIZE] at *; omega
    · simp only [List.length_take, List.length_drop]; exact Nat.min_le_left _ _
    · intro hk3
      have hk4 : (k + 1) * CHUNK_SIZE < file.length := (lt_num_chunks_iff _ _).mp hk3
      simp only [List.length_take, List.length_drop, CHUNK_SIZE] at *; omega
  · intro h0
    have hn : num_chunks file.length = 0 := by rw [h0]; decide
    rw [hchunks, hn]; rfl

/-- Witness of `chunking_of_source_file`: a three-byte file read in full is one chunk. -/
theorem chunking_of_source_file_witness :
    Env.full.ideal ∧ [1, 2, 3].length ≤ INT_LIMIT * CHUNK_SIZE ∧
      (file_transfer Env.full [1, 2, 3]).exit = Exit.done ∧
      (file_transfer Env.full [1, 2, 3]).chunks.length = num_chunks [1, 2, 3].length :=
  let h := chunking_of_source_file Env.full [1, 2, 3] full_ideal (by decide)
  ⟨full_ideal, by decide, h.1, h.2.1⟩

/-- C9, counterexample.  A source file of `(2^31 + 1) * CHUNK_SIZE` bytes read in full has
`2^31 + 1` chunks; the dispatch queues `2^31` of them and then leaves defined behaviour at
the subscript `workers[-3]`: the chunk created last is on no worker queue. -/
theorem dispatch_int_overflow :
    num_chunks (List.replicate 17592186052608 0).length = 2147483649 ∧
      (file_transfer Env.full (List.replicate 17592186052608 0)).queued.length = 2147483648 ∧
      (file_transfer Env.full (List.replicate 17592186052608 0)).exit =
        Exit.fault (wrapped_chunk (List.replicate 17592186052608 0)) (-3) ∧
      ∀ w, wrapped_chunk (List.replicate 17592186052608 0) ∉
        (file_transfer Env.full (List.replicate 17592186052608 0)).worker_queue w := by
  have hn : num_chunks (List.replicate 17592186052608 0).length = 2147483649 := by
    rw [List.length_replicate]; decide
  have hmin : min 2147483649 INT_LIMIT = 2147483648 := by decide
  have hnot : ¬ 2147483649 ≤ INT_LIMIT := by decide
  have hexit : (file_transfer Env.full (List.replicate 17592186052608 0)).exit =
      Exit.fault (wrapped_chunk (List.replicate 17592186052608 0)) (-3) := by
    rw [file_transfer_ideal full_ideal, hn, if_neg hnot]
  refine ⟨hn, ?_, hexit, ?_⟩
  · rw [file_transfer_ideal full_ideal, hn, hmin]
    simp only [List.length_map, List.length_range]
  · intro w hmem
    exact (fault_chunk_not_queued _ _ hexit).2.2.2.1
      ((worker_queue_sublist _ w).subset hmem)

/-- C9, amended.  For every source file and every environment the read loop terminates,
and of the chunks it queues: every call of `kthread_queue_work` uses a subscript below
`NUM_WORKERS`; the worker queues together hold as many entries as chunks were queued, each
queue in creation order, and a chunk is on the queue of worker `w` exactly when
`w = (chunk_index + 1) mod NUM_WORKERS`; within each queue the chunk indices are those
congruent to `w - 1` modulo 4 in increasing order, consecutive entries differing by exactly
`NUM_WORKERS`.  Every created chunk is queued as long as no more than `2^31` chunks are
created, which holds for every file of at most `2^31` bytes and, with full-length reads and
successful allocations, for every file of at most `2^31 * CHUNK_SIZE` bytes; the chunk
created after that carries the wrapped index `-2^31` and is not queued. -/
theorem per_worker_fifo (env : Env) (file : List Nat) :
    (file_transfer env file).exit ≠ Exit.out_of_fuel ∧
      (∀ q ∈ (file_transfer env file).queued, q.1 < NUM_WORKERS) ∧
      ((List.range NUM_WORKERS).map
          (fun w => ((file_transfer env file).worker_queue w).length)).sum =
        (file_transfer env file).chunks.length ∧
      (∀ w, ((file_transfer env file).worker_queue w).Sublist (file_transfer env file).chunks) ∧
      (∀ c ∈ (file_transfer env file).chunks, ∀ w,
        (c ∈ (file_transfer env file).worker_queue w ↔
          (w : Int) = (c.chunk_index + 1) % NUM_WORKERS)) ∧
      (∀ w, ((file_transfer env file).worker_queue w).map chunk_info.chunk_index =
          ((List.range (file_transfer env file).chunks.length).filter
            (fun j => decide ((j + 1) % NUM_WORKERS = w))).map (fun (j : Nat) => (j : Int))) ∧
      (∀ w, List.Chain' (fun a b : Int => a < b ∧ b = a + NUM_WORKERS)
        (((file_transfer env file).worker_queue w).map chunk_info.chunk_index)) ∧
      (∀ c w, (file_transfer env file).exit = Exit.fault c w →
        (file_transfer env file).chunks.length = INT_LIMIT ∧ c.chunk_index = -2147483648 ∧
          w = -3 ∧ c ∉ (file_transfer env file).chunks ∧ INT_LIMIT < file.length) ∧
      (file.length ≤ INT_LIMIT → ∀ c w, (file_transfer env file).exit ≠ Exit.fault c w) ∧
      (env.ideal → file.length ≤ INT_LIMIT * CHUNK_SIZE →
        (file_transfer env file).exit = Exit.done ∧
          (file_transfer env file).chunks.length = num_chunks file.length) := by
  have hlt : ∀ q ∈ (file_transfer env file).queued, q.1 < NUM_WORKERS := by
    intro q hq
    obtain ⟨j, _, _, hw, _⟩ := queued_entry env file hq
    rw [hw]
    exact Nat.mod_lt _ (by decide)
  refine ⟨file_transfer_terminates env file, hlt, ?_, worker_queue_sublist _, ?_,
    worker_queue_indices_general env file, ?_, ?_, ?_, ?_⟩
  · have h := sum_filter_workers (file_transfer env file).queued hlt
    simp only [Transfer.worker_queue, Transfer.chunks, List.length_map]
    exact h
  · intro c hc w
    constructor
    · intro hmem
      obtain ⟨q, hq, hqc⟩ := List.mem_map.mp hmem
      rw [List.mem_filter] at hq
      obtain ⟨j, _, _, hw, hidx⟩ := queued_entry env file hq.1
      have hqw : q.1 = w := by simpa using hq.2
      rw [← hqc, hidx, ← hqw, hw]
      simp only [NUM_WORKERS]
      omega
    · intro hw
      obtain ⟨q, hq, hqc⟩ := List.mem_map.mp hc
      obtain ⟨j, _, _, hq1, hidx⟩ := queued_entry env file hq
      refine List.mem_map.mpr ⟨q, ?_, hqc⟩
      rw [List.mem_filter]
      refine ⟨hq, ?_⟩
      have : q.1 = w := by
        rw [← hqc, hidx] at hw
        rw [hq1]
        simp only [NUM_WORKERS] at hw ⊢
        omega
      simp [this]
  · intro w
    rw [worker_queue_indices_general]
    by_cases hw : w < NUM_WORKERS
    · rw [worker_filter_eq w hw, List.map_map]
      have hc := chain_progression ((w + 3) % 4)
        (((file_transfer env file).chunks.length + 3 - (w + 3) % 4) / 4)
      refine List.Chain'.imp ?_ hc
      intro a b hab
      refine ⟨?_, hab⟩
      rw [hab]; simp only [NUM_WORKERS]; omega
    · have : (List.range (file_transfer env file).chunks.length).filter
          (fun k => decide ((k + 1) % NUM_WORKERS = w)) = [] := by
        rw [List.filter_eq_nil_iff]
        intro k _
        have := Nat.mod_lt (k + 1) (show 0 < NUM_WORKERS by decide)
        simp only [decide_eq_true_eq]
        omega
      rw [this]; exact List.chain'_nil
  · intro c w h
    exact fault_chunk_not_queued env file h
  · intro hlen c w h
    have := (fault_chunk_not_queued env file h).2.2.2.2
    omega
  · intro he hlen
    have hq := file_transfer_bounded he hlen
    refine ⟨by rw [hq], ?_⟩
    rw [chunks_bounded he hlen, List.length_map, List.length_range]

/-- Witness of `per_worker_fifo`: the one-byte file 7 read in full; its chunk 0 is on the
queue of worker 1 only, and the loop ends normally. -/
theorem per_worker_fifo_witness :
    [7].length ≤ INT_LIMIT ∧ Env.full.ideal ∧
      (∀ c w, (file_transfer Env.full [7]).exit ≠ Exit.fault c w) ∧
      (file_transfer Env.full [7]).exit = Exit.done :=
  let h := per_worker_fifo Env.full [7]
  ⟨by decide, full_ideal, h.2.2.2.2.2.2.2.2.1 (by decide),
    (h.2.2.2.2.2.2.2.2.2 full_ideal (by decide)).1⟩

/-- C10, counterexample.  A source file of 100001 bytes, well below `100000 *
CHUNK_SIZE`, whose reads return one byte at a time: the sender creates 100001 chunks and
emits a datagram with index 100000, on which the receiver's subscript leaves the array. -/
theorem short_reads_exceed_dedup_array :
    (List.replicate 100001 0).length ≤ RECEIVED_CHUNKS_LEN * CHUNK_SIZE ∧
      ∃ d ∈ (file_transfer Env.bytewise (List.replicate 100001 0)).frames,
        frame_index d = 100000 ∧ SIZEOF_INT ≤ d.length ∧
        ∀ (s : Client) (buf : List Nat) (room : Nat),
          receive_step s buf (some { datagram := d, fwrite_room := room }) =
            Outcome.fault Fault.index_out_of_bounds := by
  have hL : (List.replicate 100001 0).length = 100001 := List.length_replicate _ _
  have hb := @file_transfer_bytewise (List.replicate 100001 0) (by rw [hL]; decide)
  rw [hL] at hb
  obtain ⟨hcount, hdata⟩ := hb
  have hlt : 100000 < (file_transfer Env.bytewise (List.replicate 100001 0)).chunks.length := by
    rw [hcount]; exact Nat.lt_succ_self _
  obtain ⟨c, hget⟩ : ∃ c, (file_transfer Env.bytewise (List.replicate 100001 0)).chunks[100000]? =
      some c := ⟨_, List.getElem?_eq_getElem hlt⟩
  have hidx : c.chunk_index = ((100000 : Nat) : Int) := chunk_at_index _ _ hget
  have hmem : c ∈ (file_transfer Env.bytewise (List.replicate 100001 0)).chunks :=
    List.getElem?_mem hget
  have hsome := hdata c hmem
  have hfi : ∀ y : List Nat, frame_index (int_bytes ((100000 : Nat) : Int) ++ y) = 100000 := by
    intro y
    rw [frame_index_append]; decide
  refine ⟨by rw [hL]; decide, ?_⟩
  cases hd : c.data with
  | none => exact absurd hd hsome
  | some x =>
    have hsend : send_chunk c = some (int_bytes ((100000 : Nat) : Int) ++ x.take c.size) := by
      unfold send_chunk
      rw [hd, hidx]
    have h4 : SIZEOF_INT ≤ (int_bytes ((100000 : Nat) : Int) ++ x.take c.size).length := by
      rw [List.length_append, int_bytes_length, SIZEOF_INT]; omega
    refine ⟨_, List.mem_filterMap.mpr ⟨c, hmem, hsend⟩, hfi _, h4, ?_⟩
    intro s buf room
    apply receive_step_out_of_bounds s buf h4
    right
    have h5 : ((RECEIVED_CHUNKS_LEN : Nat) : Int) ≤ 100000 := by decide
    have h6 : Packet.index
        { datagram := int_bytes ((100000 : Nat) : Int) ++ x.take c.size, fwrite_room := room } =
        100000 := hfi _
    rw [h6]; exact h5

/-- C10, amended.  For every source file of at most `100000 * CHUNK_SIZE` bytes read with
full-length reads: (1) on a datagram of at least 4 bytes the subscript of
`received_chunks[buf.index]` leaves the array exactly when the index is negative or at
least 100000, and then the iteration is undefined behaviour; (2) every datagram the sender
emits has at least 4 bytes and an index in `[0, 100000)`; (3) a receiving thread fed any
sequence of such datagrams (any order, any repetition, any starting state) never reaches
the out-of-bounds subscript, nor any other fault. -/
theorem dedup_array_bounds (env : Env) (file : List Nat)
    (hfull : ∀ i, CHUNK_SIZE ≤ env.read_cap i)
    (hlen : file.length ≤ RECEIVED_CHUNKS_LEN * CHUNK_SIZE) :
    (∀ (s : Client) (buf : List Nat) (p : Packet), SIZEOF_INT ≤ p.datagram.length →
      (receive_step s buf (some p) = Outcome.fault Fault.index_out_of_bounds ↔
        (p.index < 0 ∨ (RECEIVED_CHUNKS_LEN : Int) ≤ p.index))) ∧
    (∀ d ∈ (file_transfer env file).frames,
      SIZEOF_INT ≤ d.length ∧ 0 ≤ frame_index d ∧ frame_index d < RECEIVED_CHUNKS_LEN) ∧
    (∀ (s : Client) (buf : List Nat) (ps : List Packet),
      (∀ p ∈ ps, p.datagram ∈ (file_transfer env file).frames) →
      ∀ f, receive_chunks s buf (ps.map some) ≠ Outcome.fault f) := by
  have hframes : ∀ d ∈ (file_transfer env file).frames,
      SIZEOF_INT ≤ d.length ∧ 0 ≤ frame_index d ∧ frame_index d < RECEIVED_CHUNKS_LEN := by
    intro d hd
    obtain ⟨j, hj, _, h4, hidx⟩ := frame_of_mem env file hd
    have hcount := file_transfer_count env hfull file
    have hn := (num_chunks_le_iff file.length RECEIVED_CHUNKS_LEN).mpr hlen
    have hj2 : j < RECEIVED_CHUNKS_LEN := by
      simp only [Transfer.chunks, List.length_map] at hj
      omega
    rw [hidx]
    exact ⟨h4, by omega, by exact_mod_cast hj2⟩
  refine ⟨?_, hframes, ?_⟩
  · intro s buf p h4
    constructor
    · intro hfault
      by_contra hin
      have h0 : 0 ≤ p.index := Int.not_lt.mp (fun h => hin (Or.inl h))
      have hN : p.index < RECEIVED_CHUNKS_LEN := Int.not_le.mp (fun h => hin (Or.inr h))
      exact receive_step_no_fault s buf h4 h0 hN _ hfault
    · exact receive_step_out_of_bounds s buf h4
  · intro s buf ps hps f
    exact receive_chunks_no_fault ps s buf (fun p hp => hframes _ (hps p hp)) f

/-- Witness of `dedup_array_bounds`: the three-byte file 1, 2, 3 read in full. -/
theorem dedup_array_bounds_witness :
    (file_transfer Env.full [1, 2, 3]).frames = [[0, 0, 0, 0, 1, 2, 3]] ∧
      ∀ d ∈ (file_transfer Env.full [1, 2, 3]).frames,
        SIZEOF_INT ≤ d.length ∧ 0 ≤ frame_index d ∧ frame_index d < RECEIVED_CHUNKS_LEN :=
  ⟨by decide,
    (dedup_array_bounds Env.full [1, 2, 3] (fun _ => Nat.le_refl _) (by decide)).2.1⟩

end UdpTransfer
